import Mathlib

/-!
Shallow embedding of the document-canvas markdown renderer and text-selection
hook of this repository (`src/canvases/document/hooks/use-text-selection.ts`
and the markdown renderer module sharing that file): block parser, inline
parser, word-wrap reflow, overlay passes, terminal-to-offset resolution and
the pointer selection state machine, together with proofs about them.
Strings are modelled as lists of characters; JavaScript `number` offsets are
natural numbers (all offset arithmetic in the source clamps at zero exactly
as truncated subtraction does), terminal coordinates are integers.
-/

namespace Canvas

/-- Display and source strings are modelled as lists of characters. -/
abbrev Str := List Char

/-- Whitespace as matched by JavaScript `\s` / `trim` / `trimStart` /
`trimEnd` (the ASCII part plus NBSP; the renderer only feeds it ASCII). -/
def jsWs (c : Char) : Bool :=
  c == ' ' || c == '\t' || c == '\n' || c == '\r' ||
  c == Char.ofNat 11 || c == Char.ofNat 12 || c == Char.ofNat 160

/-- JavaScript `String.prototype.trimStart`. -/
def trimStart (s : Str) : Str := s.dropWhile jsWs

/-- JavaScript `String.prototype.trimEnd`. -/
def trimEnd (s : Str) : Str := (s.reverse.dropWhile jsWs).reverse

/-- JavaScript `content.split("\n")`. -/
def splitLines : Str → List Str
  | [] => [[]]
  | c :: rest =>
    if c = '\n' then [] :: splitLines rest
    else
      match splitLines rest with
      | [] => [[]]
      | l :: ls => (c :: l) :: ls

/-- Join lines with newline separators: `lines.join("\n")`. -/
def joinNL : List Str → Str
  | [] => []
  | [l] => l
  | l :: l₂ :: ls => l ++ '\n' :: joinNL (l₂ :: ls)

/-- Join lines with single-space separators: `lines.join(" ")`
(used by the paragraph branch of the renderer). -/
def joinSpace : List Str → Str
  | [] => []
  | [l] => l
  | l :: l₂ :: ls => l ++ ' ' :: joinSpace (l₂ :: ls)

theorem splitLines_ne_nil (s : Str) : splitLines s ≠ [] := by
  cases s with
  | nil => simp [splitLines]
  | cons c rest =>
    simp only [splitLines]
    split
    · simp
    · cases h : splitLines rest with
      | nil => simp
      | cons l ls => simp

theorem joinNL_cons_ne (a : Str) (l : List Str) (h : l ≠ []) :
    joinNL (a :: l) = a ++ '\n' :: joinNL l := by
  cases l with
  | nil => exact absurd rfl h
  | cons b t => rfl

/-- Splitting on newlines and joining with newlines is the identity: the
line decomposition used by the block parser loses no characters. -/
theorem joinNL_splitLines (s : Str) : joinNL (splitLines s) = s := by
  induction s with
  | nil => rfl
  | cons c rest ih =>
    simp only [splitLines]
    by_cases hc : c = '\n'
    · subst hc
      rw [if_pos rfl, joinNL_cons_ne _ _ (splitLines_ne_nil rest), ih]
      rfl
    · rw [if_neg hc]
      cases h : splitLines rest with
      | nil => exact absurd h (splitLines_ne_nil rest)
      | cons l ls =>
        rw [h] at ih
        cases ls with
        | nil =>
          simp only [joinNL] at ih ⊢
          rw [ih]
        | cons l₂ ls₂ =>
          rw [joinNL_cons_ne _ _ (by simp)] at ih ⊢
          simp [← ih]

/-- Offset advance of the block parser across a run of consumed lines:
each line contributes its length plus one for the newline. -/
def lineSpan (ls : List Str) : Nat := (ls.map (fun l => l.length + 1)).sum

theorem lineSpan_eq (ls : List Str) (h : ls ≠ []) :
    lineSpan ls = (joinNL ls).length + 1 := by
  induction ls with
  | nil => exact absurd rfl h
  | cons l tl ih =>
    cases tl with
    | nil => simp [lineSpan, joinNL]
    | cons l₂ ls₂ =>
      have h2 := ih (by simp)
      rw [joinNL_cons_ne _ _ (by simp)]
      simp only [lineSpan, List.map_cons, List.sum_cons] at h2 ⊢
      simp only [List.length_append, List.length_cons]
      omega

theorem joinNL_cons_flatten (c : List Str) (hc : c ≠ []) (xs : List Str) :
    joinNL (joinNL c :: xs) = joinNL (c ++ xs) := by
  induction c with
  | nil => exact absurd rfl hc
  | cons l tl ih =>
    cases tl with
    | nil => cases xs <;> simp [joinNL]
    | cons l₂ ls₂ =>
      have h2 := ih (by simp)
      cases xs with
      | nil =>
        simp only [List.append_nil]
        rfl
      | cons x xs' =>
        rw [joinNL_cons_ne l (l₂ :: ls₂) (by simp),
            joinNL_cons_ne (l ++ '\n' :: joinNL (l₂ :: ls₂)) (x :: xs') (by simp),
            show l :: l₂ :: ls₂ ++ x :: xs' = l :: ((l₂ :: ls₂) ++ x :: xs') by simp,
            joinNL_cons_ne l ((l₂ :: ls₂) ++ x :: xs') (by simp),
            ← h2, joinNL_cons_ne (joinNL (l₂ :: ls₂)) (x :: xs') (by simp)]
        simp

theorem dropWhile_length_le {α : Type} (p : α → Bool) (l : List α) :
    (l.dropWhile p).length ≤ l.length := by
  induction l with
  | nil => simp
  | cons a t ih =>
    by_cases h : p a
    · simp only [List.dropWhile, h, List.length_cons]
      omega
    · simp [List.dropWhile, h]

/-! Styles and segments (`types.ts`). -/

/-- Optional-field record mirroring the TypeScript `SegmentStyle`; a `none`
field models an absent property. -/
structure SegmentStyle where
  bold : Option Bool := none
  italic : Option Bool := none
  underline : Option Bool := none
  strikethrough : Option Bool := none
  color : Option String := none
  backgroundColor : Option String := none
  dimColor : Option Bool := none
  type : Option String := none
deriving Repr, DecidableEq

/-- JavaScript object spread `{...a, ...b}` on two style records: properties
present on `b` override those of `a`. -/
def styleMerge (a b : SegmentStyle) : SegmentStyle where
  bold := b.bold.orElse fun _ => a.bold
  italic := b.italic.orElse fun _ => a.italic
  underline := b.underline.orElse fun _ => a.underline
  strikethrough := b.strikethrough.orElse fun _ => a.strikethrough
  color := b.color.orElse fun _ => a.color
  backgroundColor := b.backgroundColor.orElse fun _ => a.backgroundColor
  dimColor := b.dimColor.orElse fun _ => a.dimColor
  type := b.type.orElse fun _ => a.type

def mdH1 : SegmentStyle := { bold := some true, color := some "white", type := some "h1" }

def mdH2 : SegmentStyle := { bold := some true, color := some "white", type := some "h2" }

def mdH3 : SegmentStyle := { bold := some true, color := some "cyan", type := some "h3" }

def mdH4 : SegmentStyle := { color := some "cyan", type := some "h4" }

def mdBold : SegmentStyle := { bold := some true, type := some "bold" }

def mdItalic : SegmentStyle := { italic := some true, type := some "italic" }

def mdCode : SegmentStyle := { color := some "yellow", type := some "code" }

def mdCodeBlock : SegmentStyle := { color := some "gray", type := some "codeBlock" }

def mdLink : SegmentStyle := { color := some "blue", underline := some true, type := some "link" }

def mdBlockquote : SegmentStyle := { color := some "gray", dimColor := some true, type := some "blockquote" }

def diffStyleAdd : SegmentStyle := { backgroundColor := some "green" }

def diffStyleDelete : SegmentStyle := { backgroundColor := some "red", strikethrough := some true }

def selectionStyle : SegmentStyle := { backgroundColor := some "blue" }

/-- A styled run of display text tagged with the source span it came from. -/
structure LineSegment where
  text : Str
  sourceOffset : Nat
  sourceLength : Nat
  style : SegmentStyle
deriving Repr, DecidableEq

/-! Inline parser (`parseInline`). The combined regex
with alternatives bold, italic, inline code, link is embedded as an explicit
leftmost-match scan with the same alternation order and the same lazy/greedy
quantifier semantics. -/

/-- Style `{...baseStyle, type: baseStyle.type || "body"}` attached to plain
text runs by the inline parser. -/
def plainStyle (base : SegmentStyle) : SegmentStyle :=
  { base with type := some (base.type.getD "body") }

/-- Segment construction shared by every push site in `parseInline`: `text`
is the slice of the input starting at `j` of length `k`, `sourceOffset` is
`baseOffset + j` and `sourceLength` is the display text's length (every push
in the source sets `sourceLength` to the length of the string it displays). -/
def mkSeg (s : Str) (base j k : Nat) (st : SegmentStyle) : LineSegment :=
  ⟨(s.drop j).take k, base + j, ((s.drop j).take k).length, st⟩

inductive InlineKind
  | bold
  | italic
  | code
  | link
deriving Repr, DecidableEq

/-- One match of the combined inline pattern: start index and length of the
full match, position and length of the displayed capture group, and which
alternative matched. -/
structure InlineMatch where
  index : Nat
  fullLen : Nat
  contentStart : Nat
  contentLen : Nat
  kind : InlineKind
deriving Repr, DecidableEq

/-- The backtick character. -/
def bt : Char := Char.ofNat 96

/-- Alternative `\*\*(.+?)\*\*` at index `i`: two stars, then the shortest
nonempty run of non-newline characters followed by two stars. -/
def tryBold (s : Str) (i : Nat) : Option InlineMatch :=
  if s[i]? = some '*' ∧ s[i+1]? = some '*' then
    match (List.range' 1 s.length).find? (fun k =>
        ((s.drop (i+2)).take k).all (fun c => c != '\n') &&
        s[i+2+k]? == some '*' && s[i+3+k]? == some '*') with
    | some k => some ⟨i, k + 4, i + 2, k, .bold⟩
    | none => none
  else none

/-- Alternative `\*(.+?)\*` at index `i`. -/
def tryItalic (s : Str) (i : Nat) : Option InlineMatch :=
  if s[i]? = some '*' then
    match (List.range' 1 s.length).find? (fun k =>
        ((s.drop (i+1)).take k).all (fun c => c != '\n') &&
        s[i+1+k]? == some '*') with
    | some k => some ⟨i, k + 2, i + 1, k, .italic⟩
    | none => none
  else none

/-- Alternative for inline code at index `i`: a backtick, then the greedy
nonempty run of non-backticks, then a backtick. -/
def tryCode (s : Str) (i : Nat) : Option InlineMatch :=
  if s[i]? = some bt then
    let run := (s.drop (i+1)).takeWhile (fun c => c != bt)
    if run.length ≥ 1 ∧ s[i+1+run.length]? = some bt then
      some ⟨i, run.length + 2, i + 1, run.length, .code⟩
    else none
  else none

/-- Alternative `\[([^\]]+)\]\(([^)]+)\)` at index `i`. -/
def tryLink (s : Str) (i : Nat) : Option InlineMatch :=
  if s[i]? = some '[' then
    let r1 := ((s.drop (i+1)).takeWhile (fun c => c != ']')).length
    if r1 ≥ 1 ∧ s[i+1+r1]? = some ']' ∧ s[i+2+r1]? = some '(' then
      let r2 := ((s.drop (i+3+r1)).takeWhile (fun c => c != ')')).length
      if r2 ≥ 1 ∧ s[i+3+r1+r2]? = some ')' then
        some ⟨i, r1 + r2 + 4, i + 1, r1, .link⟩
      else none
    else none
  else none

/-- Alternation order of the combined inline regex: `**` before `*`, then
inline code, then links. -/
def tryMatchAt (s : Str) (i : Nat) : Option InlineMatch :=
  (tryBold s i).orElse fun _ => (tryItalic s i).orElse fun _ =>
    (tryCode s i).orElse fun _ => tryLink s i

/-- `inlinePattern.exec` resuming from `lastIndex = p`: the leftmost match
starting at or after position `p`. -/
def findFrom (s : Str) (p : Nat) : Option InlineMatch :=
  (List.range' p (s.length - p)).findSome? (tryMatchAt s)

/-- Style attached to a matched span: `{...baseStyle, ...MARKDOWN_STYLES.x}`. -/
def styleFor (base : SegmentStyle) : InlineKind → SegmentStyle
  | .bold => styleMerge base mdBold
  | .italic => styleMerge base mdItalic
  | .code => styleMerge base mdCode
  | .link => styleMerge base mdLink

/-- Main loop of `parseInline`: repeated `exec`, emitting the plain run
before each match, the styled capture, and finally the remaining tail. The
fuel argument only bounds the recursion; `s.length + 1` iterations are never
reached because every match consumes at least three characters. -/
def parseInlineGo (s : Str) (base : Nat) (bstyle : SegmentStyle) :
    Nat → Nat → List LineSegment
  | 0, lastEnd =>
    if lastEnd < s.length then
      [mkSeg s base lastEnd (s.length - lastEnd) (plainStyle bstyle)]
    else []
  | fuel + 1, lastEnd =>
    match findFrom s lastEnd with
    | none =>
      if lastEnd < s.length then
        [mkSeg s base lastEnd (s.length - lastEnd) (plainStyle bstyle)]
      else []
    | some m =>
      (if lastEnd < m.index then
        [mkSeg s base lastEnd (m.index - lastEnd) (plainStyle bstyle)]
      else []) ++
      mkSeg s base m.contentStart m.contentLen (styleFor bstyle m.kind) ::
      parseInlineGo s base bstyle fuel (m.index + m.fullLen)

/-- Inline markdown parser `parseInline(text, baseOffset, baseStyle)`;
if the scan produced no segments (empty input), the whole text is emitted
as a single plain segment. -/
def parseInline (s : Str) (base : Nat) (bstyle : SegmentStyle) : List LineSegment :=
  let r := parseInlineGo s base bstyle (s.length + 1) 0
  if r.isEmpty then [mkSeg s base 0 s.length (plainStyle bstyle)] else r

/-! Word wrap (`wordWrap` and `wordWrapSegments`). -/

/-- JavaScript `remaining.lastIndexOf(" ", pos)`: the greatest index of a
space at or before `pos` (the search start is capped at the last index). -/
def lastSpace (s : Str) (pos : Nat) : Option Nat :=
  ((List.range (min (pos + 1) s.length)).filter (fun i => s[i]? == some ' ')).getLast?

/-- Adjusted break point of one `wordWrap` loop iteration: the last space at
or before the width, replaced by the width itself when there is no such
space or it sits at index 0. -/
def wwBreak (remaining : Str) (width : Nat) : Nat :=
  match lastSpace remaining width with
  | none => width
  | some 0 => width
  | some (i + 1) => i + 1

/-- Loop of `wordWrap`. The fuel bounds the recursion; it is irrelevant
whenever it is at least the remaining length and the width is positive. -/
def wordWrapGo (width : Nat) : Nat → Str → List Str
  | 0, _ => []
  | fuel + 1, remaining =>
    if remaining.length = 0 then []
    else if remaining.length ≤ width then [remaining]
    else
      let bp := wwBreak remaining width
      trimEnd (remaining.take bp) :: wordWrapGo width fuel (trimStart (remaining.drop bp))

/-- `wordWrap(text, width)`: greedy word wrap preserving word boundaries. -/
def wordWrap (text : Str) (width : Nat) : List Str :=
  if text.length ≤ width then [text]
  else wordWrapGo width text.length text

/-- One physical terminal row's worth of segments after word wrap. -/
structure RenderedLine where
  lineNumber : Nat
  sourceOffset : Nat
  sourceLength : Nat
  segments : List LineSegment
  indent : Nat
  isBlank : Bool
deriving Repr, DecidableEq

/-- Inner loop of `wordWrapSegments`: walk the original segments, carrying
each segment's start position in the flattened text, and emit the sub-slice
of each segment that overlaps the current wrapped line's range. -/
def overlapSlices (lineStart lineEnd : Nat) : List LineSegment → Nat → List LineSegment
  | [], _ => []
  | seg :: rest, segOffset =>
    let segStart := segOffset
    let segEnd := segOffset + seg.text.length
    let tail := overlapSlices lineStart lineEnd rest segEnd
    if lineStart < segEnd ∧ segStart < lineEnd then
      let a := max segStart lineStart - segStart
      let b := min segEnd lineEnd - segStart
      if a < b then
        ⟨(seg.text.drop a).take (b - a), seg.sourceOffset + a, b - a, seg.style⟩ :: tail
      else tail
    else tail

/-- `segments[0]?.sourceOffset || 0`. -/
def headOff (segments : List LineSegment) : Nat :=
  (segments.head?).elim 0 (·.sourceOffset)

/-- Outer loop of `wordWrapSegments` over the wrapped lines, carrying the
read cursor into the flattened text (which skips one space after each line
boundary that sits on a space) and the next line number. -/
def wwsGo (segments : List LineSegment) (fullText : Str) :
    List Str → Nat → Nat → List RenderedLine
  | [], _, _ => []
  | wl :: rest, textOffset, lineNumber =>
    let lineSegs := overlapSlices textOffset (textOffset + wl.length) segments 0
    let t1 := textOffset + wl.length
    let t2 := if fullText[t1]? == some ' ' then t1 + 1 else t1
    match lineSegs with
    | [] => wwsGo segments fullText rest t2 lineNumber
    | ls0 :: _ =>
      ⟨lineNumber, ls0.sourceOffset, (lineSegs.map (·.sourceLength)).sum, lineSegs, 0, false⟩ ::
        wwsGo segments fullText rest t2 (lineNumber + 1)

/-- `wordWrapSegments(segments, width)`: flatten the segment texts, word-wrap
the flat text, and map each wrapped line back to sub-slices of the original
segments. Empty flat text produces a single blank line. -/
def wordWrapSegments (segments : List LineSegment) (width : Nat) : List RenderedLine :=
  let fullText : Str := (segments.map (·.text)).flatten
  if fullText.length = 0 then
    [⟨1, headOff segments, 0, [⟨[], headOff segments, 0, {}⟩], 0, true⟩]
  else
    wwsGo segments fullText (wordWrap fullText width) 0 1

theorem getLast?_mem {α : Type} {l : List α} {a : α} (h : l.getLast? = some a) :
    a ∈ l := by
  obtain ⟨hne, rfl⟩ := List.mem_getLast?_eq_getLast (l := l) (x := a) (by simp [h])
  exact List.getLast_mem hne

theorem trimEnd_length_le (s : Str) : (trimEnd s).length ≤ s.length := by
  unfold trimEnd
  calc (s.reverse.dropWhile jsWs).reverse.length
      = (s.reverse.dropWhile jsWs).length := by simp
    _ ≤ s.reverse.length := dropWhile_length_le _ _
    _ = s.length := by simp

theorem trimStart_length_le (s : Str) : (trimStart s).length ≤ s.length :=
  dropWhile_length_le _ _

theorem lastSpace_le {s : Str} {pos i : Nat} (h : lastSpace s pos = some i) :
    i ≤ pos ∧ i < s.length := by
  unfold lastSpace at h
  have hmem := getLast?_mem h
  have h2 := (List.mem_filter.mp hmem).1
  have h3 := List.mem_range.mp h2
  omega

theorem wwBreak_pos (rem : Str) {w : Nat} (hw : 1 ≤ w) : 1 ≤ wwBreak rem w := by
  unfold wwBreak
  split
  · exact hw
  · exact hw
  · omega

theorem wwBreak_le (rem : Str) (w : Nat) : wwBreak rem w ≤ w := by
  unfold wwBreak
  split
  · exact le_rfl
  · exact le_rfl
  · rename_i i h
    exact (lastSpace_le h).1

/-- Every line produced by the `wordWrap` loop has length at most the
width: a space break point is at most the width and a forced break is the
width itself, and trailing trims only shorten. -/
theorem wordWrapGo_length_le (w : Nat) :
    ∀ fuel (rem : Str), ∀ L ∈ wordWrapGo w fuel rem, L.length ≤ w := by
  intro fuel
  induction fuel with
  | zero => intro rem L hL; simp [wordWrapGo] at hL
  | succ f ih =>
    intro rem L hL
    simp only [wordWrapGo] at hL
    by_cases h0 : rem.length = 0
    · simp [h0] at hL
    · rw [if_neg h0] at hL
      by_cases h1 : rem.length ≤ w
      · rw [if_pos h1] at hL
        simp only [List.mem_singleton] at hL
        subst hL
        exact h1
      · rw [if_neg h1] at hL
        rcases List.mem_cons.mp hL with h2 | h2
        · subst h2
          calc (trimEnd (rem.take (wwBreak rem w))).length
              ≤ (rem.take (wwBreak rem w)).length := trimEnd_length_le _
            _ ≤ wwBreak rem w := by simp
            _ ≤ w := wwBreak_le rem w
        · exact ih _ L h2

theorem wordWrap_length_le (s : Str) (w : Nat) :
    ∀ L ∈ wordWrap s w, L.length ≤ w := by
  intro L hL
  unfold wordWrap at hL
  by_cases h : s.length ≤ w
  · rw [if_pos h] at hL
    simp at hL
    subst hL
    exact h
  · rw [if_neg h] at hL
    exact wordWrapGo_length_le w s.length s L hL

theorem wordWrap_of_short {L : Str} {w : Nat} (h : L.length ≤ w) :
    wordWrap L w = [L] := by
  unfold wordWrap
  rw [if_pos h]

/-- Progress of the `wordWrap` loop: with positive width, the adjusted
break point is at least 1, so each iteration strictly shortens the
remaining text. -/
theorem wwProgress {rem : Str} {w : Nat} (hw : 1 ≤ w) (h : w < rem.length) :
    (trimStart (rem.drop (wwBreak rem w))).length < rem.length := by
  have h1 := wwBreak_pos rem hw
  have h2 : (rem.drop (wwBreak rem w)).length = rem.length - wwBreak rem w := by simp
  have h3 := trimStart_length_le (rem.drop (wwBreak rem w))
  omega

/-- Fuel irrelevance of the `wordWrap` loop for positive widths: any fuel at
least the remaining length computes the same value. -/
theorem wordWrapGo_fuel_eq {w : Nat} (hw : 1 ≤ w) :
    ∀ fuel₁ fuel₂ (rem : Str), rem.length ≤ fuel₁ → rem.length ≤ fuel₂ →
      wordWrapGo w fuel₁ rem = wordWrapGo w fuel₂ rem := by
  intro fuel₁
  induction fuel₁ with
  | zero =>
    intro fuel₂ rem h1 h2
    have : rem = [] := List.length_eq_zero.mp (Nat.le_zero.mp h1)
    subst this
    cases fuel₂ <;> simp [wordWrapGo]
  | succ f ih =>
    intro fuel₂ rem h1 h2
    cases fuel₂ with
    | zero =>
      have : rem = [] := List.length_eq_zero.mp (Nat.le_zero.mp h2)
      subst this
      simp [wordWrapGo]
    | succ f₂ =>
      simp only [wordWrapGo]
      by_cases h0 : rem.length = 0
      · simp [h0]
      · rw [if_neg h0, if_neg h0]
        by_cases hsh : rem.length ≤ w
        · rw [if_pos hsh, if_pos hsh]
        · rw [if_neg hsh, if_neg hsh]
          have hlt : (trimStart (rem.drop (wwBreak rem w))).length < rem.length :=
            wwProgress hw (by omega)
          rw [ih f₂ (trimStart (rem.drop (wwBreak rem w))) (by omega) (by omega)]

/-- C5: word-wrapping "aaaa bbbb cccc" at width 9 produces exactly the
lines ["aaaa bbbb", "cccc"], and in `wordWrapSegments` the first resulting
rendered line's segments cover source offsets 0 through 8 only (total
`sourceLength` 9): the space at offset 9 where the break occurred is
attributed to neither line, being skipped when the read cursor advances to
the next wrapped line. -/
theorem c5_reflow_example :
    wordWrap ("aaaa bbbb cccc".toList) 9 = ["aaaa bbbb".toList, "cccc".toList] ∧
    wordWrapSegments [⟨"aaaa bbbb cccc".toList, 0, 14, {}⟩] 9 =
      [⟨1, 0, 9, [⟨"aaaa bbbb".toList, 0, 9, {}⟩], 0, false⟩,
       ⟨2, 10, 4, [⟨"cccc".toList, 10, 4, {}⟩], 0, false⟩] := by decide

/-- C8 counterexample: the claim additionally asserts produced lines carry
no leading or trailing spaces, but an input no longer than the width is
returned verbatim: `wordWrap(" a ", 5)` is `[" a "]`, whose only line starts
(and ends) with a space. -/
theorem c8_wrap_idempotence_counterexample :
    wordWrap (" a ".toList) 5 = [" a ".toList] ∧
      (" a ".toList).headD 'x' = ' ' := by decide

/-- C8 amended: for every string and width at least 1, every line produced
by `wordWrap` has length at most the width, and hence re-wrapping that
line's text at the same width reproduces exactly that line; produced lines
may however carry leading or trailing spaces. -/
theorem c8_wrap_idempotence_amended (s : Str) (w : Nat) (_hw : 1 ≤ w)
    (L : Str) (hL : L ∈ wordWrap s w) :
    L.length ≤ w ∧ wordWrap L w = [L] := by
  have h2 := wordWrap_length_le s w L hL
  exact ⟨h2, wordWrap_of_short h2⟩

/-- C8 amended witness at a concrete input. -/
theorem c8_wrap_idempotence_amended_witness :
    ("aaaa bbbb".toList).length ≤ 9 ∧
      wordWrap ("aaaa bbbb".toList) 9 = ["aaaa bbbb".toList] :=
  c8_wrap_idempotence_amended ("aaaa bbbb cccc".toList) 9 (by decide)
    ("aaaa bbbb".toList) (by decide)

/-- C10: for width at least 1 `wordWrap` terminates: the loop computed with
any fuel at least the text length equals the loop computed with fuel equal
to the text length (fuel irrelevance), because each iteration's adjusted
break point is at least 1 and so the remaining text strictly shrinks; and
the bound is tight in that at width 0 the adjusted break point of "ab" is 0
and the remaining text does not shrink at all. -/
theorem c10_wordwrap_termination :
    (∀ (w : Nat) (s : Str) (fuel : Nat), 1 ≤ w → s.length ≤ fuel →
        wordWrapGo w fuel s = wordWrapGo w s.length s) ∧
    (∀ (w : Nat) (rem : Str), 1 ≤ w → w < rem.length →
        1 ≤ wwBreak rem w ∧
          (trimStart (rem.drop (wwBreak rem w))).length < rem.length) ∧
    (wwBreak ("ab".toList) 0 = 0 ∧
      trimStart (("ab".toList).drop (wwBreak ("ab".toList) 0)) = "ab".toList) := by
  refine ⟨fun w s fuel hw hf => wordWrapGo_fuel_eq hw fuel s.length s hf le_rfl,
    fun w rem hw hlt => ⟨wwBreak_pos rem hw, wwProgress hw hlt⟩, by decide⟩

/-- C10 witness at a concrete input. -/
theorem c10_wordwrap_termination_witness :
    wordWrapGo 9 20 ("aaaa bbbb cccc".toList) =
      wordWrapGo 9 ("aaaa bbbb cccc".toList).length ("aaaa bbbb cccc".toList) ∧
    (1 ≤ wwBreak ("aaaa bbbb cccc".toList) 9 ∧
      (trimStart (("aaaa bbbb cccc".toList).drop
        (wwBreak ("aaaa bbbb cccc".toList) 9))).length <
          ("aaaa bbbb cccc".toList).length) :=
  ⟨c10_wordwrap_termination.1 9 ("aaaa bbbb cccc".toList) 20 (by decide) (by decide),
    c10_wordwrap_termination.2.1 9 ("aaaa bbbb cccc".toList) (by decide) (by decide)⟩


/-! Block parser (`parseBlocks`). -/

inductive BlockType
  | heading
  | paragraph
  | codeBlock
  | list
  | blockquote
  | hr
  | blank
deriving Repr, DecidableEq

/-- A typed block with the verbatim joined source lines it consumed and the
offset of its first character. -/
structure Block where
  type : BlockType
  source : Str
  sourceOffset : Nat
  level : Option Nat := none
  ordered : Option Bool := none
deriving Repr, DecidableEq

/-- `line.trim() === ""`. -/
def isBlankLine (l : Str) : Bool := l.all jsWs

/-- Length of the run of leading `#` characters. -/
def headingHashes (l : Str) : Nat := (l.takeWhile (fun c => c == '#')).length

/-- Matching of `/^(#{1,4})\s+(.*)$/`: the run of leading `#` has length 1
to 4 and is followed by a whitespace character (backtracking inside the run
only ever lands on another `#`, so longer runs cannot match). -/
def isHeadingStart (l : Str) : Bool :=
  1 ≤ headingHashes l && headingHashes l ≤ 4 && (l[headingHashes l]?).elim false jsWs

/-- Characters of the horizontal-rule class `[-*_]`. -/
def isHrChar (c : Char) : Bool := c == '-' || c == '*' || c == '_'

/-- `/^[-*_]{3,}\s*$/`: at least three rule characters followed only by
whitespace. -/
def isHrLine (l : Str) : Bool :=
  (l.takeWhile isHrChar).length ≥ 3 && (l.dropWhile isHrChar).all jsWs

/-- The unanchored rule test `^[-*_]{3,}` used inside continuation checks. -/
def hrRun3 (l : Str) : Bool := (l.takeWhile isHrChar).length ≥ 3

/-- `line.startsWith("```")`. -/
def startsCode (l : Str) : Bool := [bt, bt, bt].isPrefixOf l

/-- `line.startsWith(">")`. -/
def startsQuote (l : Str) : Bool := l.head? == some '>'

/-- `/^[-*+]\s/`. -/
def ulistStart (l : Str) : Bool :=
  match l with
  | c :: d :: _ => (c == '-' || c == '*' || c == '+') && jsWs d
  | _ => false

/-- `/^\d+\.\s/`. -/
def olistStart (l : Str) : Bool :=
  let k := (l.takeWhile Char.isDigit).length
  1 ≤ k && l[k]? == some '.' && (l[k+1]?).elim false jsWs

/-- `/^\s+/`. -/
def startsWs (l : Str) : Bool := (l.head?).elim false jsWs

/-- Continuation test of the blockquote loop (note its starter regex differs
from the top-level one: bare `#{1,4}`, unanchored rule run, and only `-\s`
for list markers). -/
def quoteCont (l : Str) : Bool :=
  startsQuote l ||
    (!(isBlankLine l) &&
      !(l.head? == some '#' || hrRun3 l || startsCode l ||
        (match l with | c :: d :: _ => c == '-' && jsWs d | _ => false) ||
        olistStart l))

/-- Continuation test of the unordered-list loop. -/
def ulistCont (l : Str) : Bool := ulistStart l || startsWs l

/-- Continuation test of the ordered-list loop. -/
def olistCont (l : Str) : Bool := olistStart l || startsWs l

/-- Continuation test of the paragraph loop. -/
def paraCont (l : Str) : Bool :=
  !(isBlankLine l) &&
    !(isHeadingStart l || hrRun3 l || startsCode l || startsQuote l ||
      ulistStart l || olistStart l)

/-- Line-consuming loop of `parseBlocks`, with the running source offset.
The fuel only bounds the recursion: every iteration consumes at least one
line, so fuel equal to the number of lines is always sufficient. -/
def parseBlocksGo : Nat → List Str → Nat → List Block
  | 0, _, _ => []
  | _, [], _ => []
  | fuel + 1, line :: rest, off =>
    if isBlankLine line then
      ⟨.blank, line, off, none, none⟩ :: parseBlocksGo fuel rest (off + line.length + 1)
    else if isHeadingStart line then
      ⟨.heading, line, off, some (headingHashes line), none⟩ ::
        parseBlocksGo fuel rest (off + line.length + 1)
    else if isHrLine line then
      ⟨.hr, line, off, none, none⟩ :: parseBlocksGo fuel rest (off + line.length + 1)
    else if startsCode line then
      let body := rest.takeWhile (fun l => !(startsCode l))
      let after := rest.dropWhile (fun l => !(startsCode l))
      let consumed := line :: (body ++ after.take 1)
      ⟨.codeBlock, joinNL consumed, off, none, none⟩ ::
        parseBlocksGo fuel after.tail (off + lineSpan consumed)
    else if startsQuote line then
      ⟨.blockquote, joinNL (line :: rest.takeWhile quoteCont), off, none, none⟩ ::
        parseBlocksGo fuel (rest.dropWhile quoteCont)
          (off + lineSpan (line :: rest.takeWhile quoteCont))
    else if ulistStart line then
      ⟨.list, joinNL (line :: rest.takeWhile ulistCont), off, none, some false⟩ ::
        parseBlocksGo fuel (rest.dropWhile ulistCont)
          (off + lineSpan (line :: rest.takeWhile ulistCont))
    else if olistStart line then
      ⟨.list, joinNL (line :: rest.takeWhile olistCont), off, none, some true⟩ ::
        parseBlocksGo fuel (rest.dropWhile olistCont)
          (off + lineSpan (line :: rest.takeWhile olistCont))
    else
      ⟨.paragraph, joinNL (line :: rest.takeWhile paraCont), off, none, none⟩ ::
        parseBlocksGo fuel (rest.dropWhile paraCont)
          (off + lineSpan (line :: rest.takeWhile paraCont))

/-- `parseBlocks(content)`. -/
def parseBlocks (content : Str) : List Block :=
  parseBlocksGo (splitLines content).length (splitLines content) 0

/-! Properties of the block parser (claim C2). -/

theorem take1_append_tail {α : Type} (l : List α) : l.take 1 ++ l.tail = l := by
  cases l <;> simp

/-- Chain layout of parsed blocks: each block starts exactly one character
(the separating newline) after the previous block's span ends. -/
def Chained : Nat → List Block → Prop
  | _, [] => True
  | off, b :: bs => b.sourceOffset = off ∧ Chained (off + b.source.length + 1) bs

theorem parseBlocksGo_nil (fuel off : Nat) : parseBlocksGo fuel [] off = [] := by
  cases fuel <;> rfl

theorem parseBlocksGo_ne_nil :
    ∀ fuel (lines : List Str) off, lines ≠ [] → lines.length ≤ fuel →
      parseBlocksGo fuel lines off ≠ [] := by
  intro fuel lines off hne hlen
  cases fuel with
  | zero =>
    cases lines with
    | nil => exact absurd rfl hne
    | cons l r => simp at hlen
  | succ f =>
    cases lines with
    | nil => exact absurd rfl hne
    | cons line rest =>
      simp only [parseBlocksGo]
      split_ifs <;> simp

/-- Every block's offset is the running offset at which its first consumed
line starts, and consecutive blocks are separated by exactly the newline. -/
theorem parseBlocksGo_chained :
    ∀ fuel (lines : List Str) off, Chained off (parseBlocksGo fuel lines off) := by
  intro fuel
  induction fuel with
  | zero => intro lines off; simp [parseBlocksGo, Chained]
  | succ f ih =>
    intro lines off
    cases lines with
    | nil => simp [parseBlocksGo, Chained]
    | cons line rest =>
      simp only [parseBlocksGo]
      split_ifs with h1 h2 h3 h4 h5 h6 h7
      · exact ⟨rfl, ih rest (off + line.length + 1)⟩
      · exact ⟨rfl, ih rest (off + line.length + 1)⟩
      · exact ⟨rfl, ih rest (off + line.length + 1)⟩
      · refine ⟨rfl, ?_⟩
        rw [show off + (joinNL (line :: (rest.takeWhile (fun l => !(startsCode l)) ++
            (rest.dropWhile (fun l => !(startsCode l))).take 1))).length + 1 =
          off + lineSpan (line :: (rest.takeWhile (fun l => !(startsCode l)) ++
            (rest.dropWhile (fun l => !(startsCode l))).take 1)) by
            have := lineSpan_eq (line :: (rest.takeWhile (fun l => !(startsCode l)) ++
              (rest.dropWhile (fun l => !(startsCode l))).take 1)) (by simp)
            omega]
        exact ih _ _
      · refine ⟨rfl, ?_⟩
        rw [show off + (joinNL (line :: rest.takeWhile quoteCont)).length + 1 =
          off + lineSpan (line :: rest.takeWhile quoteCont) by
            have := lineSpan_eq (line :: rest.takeWhile quoteCont) (by simp)
            omega]
        exact ih _ _
      · refine ⟨rfl, ?_⟩
        rw [show off + (joinNL (line :: rest.takeWhile ulistCont)).length + 1 =
          off + lineSpan (line :: rest.takeWhile ulistCont) by
            have := lineSpan_eq (line :: rest.takeWhile ulistCont) (by simp)
            omega]
        exact ih _ _
      · refine ⟨rfl, ?_⟩
        rw [show off + (joinNL (line :: rest.takeWhile olistCont)).length + 1 =
          off + lineSpan (line :: rest.takeWhile olistCont) by
            have := lineSpan_eq (line :: rest.takeWhile olistCont) (by simp)
            omega]
        exact ih _ _
      · refine ⟨rfl, ?_⟩
        rw [show off + (joinNL (line :: rest.takeWhile paraCont)).length + 1 =
          off + lineSpan (line :: rest.takeWhile paraCont) by
            have := lineSpan_eq (line :: rest.takeWhile paraCont) (by simp)
            omega]
        exact ih _ _

/-- Generic step for the reconstruction proof: a branch that consumes a
nonempty run of lines whose concatenation-with-newlines becomes the block
source. -/
theorem join_step (consumed remaining : List Str) {rest : List Str} {line : Str}
    (hsplit : consumed ++ remaining = line :: rest)
    (hcons : consumed ≠ [])
    (X : List Str)
    (hrec0 : remaining = [] → X = [])
    (hX : remaining ≠ [] → X ≠ [] ∧ joinNL X = joinNL remaining) :
    joinNL (joinNL consumed :: X) = joinNL (line :: rest) := by
  by_cases hr : remaining = []
  · subst hr
    rw [hrec0 rfl]
    rw [List.append_nil] at hsplit
    rw [← hsplit]
    rfl
  · obtain ⟨hXne, hXeq⟩ := hX hr
    rw [joinNL_cons_ne _ _ hXne, hXeq, ← joinNL_cons_ne _ _ hr,
      joinNL_cons_flatten consumed hcons, hsplit]

/-- Joining the parsed blocks' sources with newlines reconstructs the lines
fed to the parser. -/
theorem parseBlocksGo_join :
    ∀ fuel (lines : List Str) off, lines.length ≤ fuel →
      joinNL ((parseBlocksGo fuel lines off).map (·.source)) = joinNL lines := by
  intro fuel
  induction fuel with
  | zero =>
    intro lines off hlen
    have : lines = [] := List.length_eq_zero.mp (Nat.le_zero.mp hlen)
    subst this
    simp [parseBlocksGo]
  | succ f ih =>
    intro lines off hlen
    cases lines with
    | nil => simp [parseBlocksGo]
    | cons line rest =>
      have hrest : rest.length ≤ f := by
        simp only [List.length_cons] at hlen
        omega
      simp only [parseBlocksGo]
      split_ifs with h1 h2 h3 h4 h5 h6 h7
      · exact join_step [line] rest (by simp) (by simp) _
          (fun hr => by simp [hr, parseBlocksGo_nil])
          (fun hr => ⟨by
              simpa using parseBlocksGo_ne_nil f rest _ hr hrest,
            ih rest _ hrest⟩)
      · exact join_step [line] rest (by simp) (by simp) _
          (fun hr => by simp [hr, parseBlocksGo_nil])
          (fun hr => ⟨by
              simpa using parseBlocksGo_ne_nil f rest _ hr hrest,
            ih rest _ hrest⟩)
      · exact join_step [line] rest (by simp) (by simp) _
          (fun hr => by simp [hr, parseBlocksGo_nil])
          (fun hr => ⟨by
              simpa using parseBlocksGo_ne_nil f rest _ hr hrest,
            ih rest _ hrest⟩)
      · -- code block: rest splits as body ++ after, one closing fence line
        -- is consumed, the recursion continues on the tail of `after`.
        refine join_step
          (line :: (rest.takeWhile (fun l => !(startsCode l)) ++
            (rest.dropWhile (fun l => !(startsCode l))).take 1))
          ((rest.dropWhile (fun l => !(startsCode l))).tail)
          ?_ (by simp) _
          (fun hr => by simp [hr, parseBlocksGo_nil])
          (fun hr => ⟨by
              simpa using parseBlocksGo_ne_nil f _ _ hr (by
                calc ((rest.dropWhile (fun l => !(startsCode l))).tail).length
                    ≤ (rest.dropWhile (fun l => !(startsCode l))).length := by
                      rw [List.length_tail]
                      omega
                  _ ≤ rest.length := dropWhile_length_le _ _
                  _ ≤ f := hrest),
            ih _ _ (by
                calc ((rest.dropWhile (fun l => !(startsCode l))).tail).length
                    ≤ (rest.dropWhile (fun l => !(startsCode l))).length := by
                      rw [List.length_tail]
                      omega
                  _ ≤ rest.length := dropWhile_length_le _ _
                  _ ≤ f := hrest)⟩)
        rw [List.cons_append, List.append_assoc, take1_append_tail,
          List.takeWhile_append_dropWhile]
      · refine join_step (line :: rest.takeWhile quoteCont) (rest.dropWhile quoteCont) ?_ (by simp) _
          (fun hr => by simp [hr, parseBlocksGo_nil])
          (fun hr => ⟨by
              simpa using parseBlocksGo_ne_nil f _ _ hr
                (le_trans (dropWhile_length_le _ _) hrest),
            ih _ _ (le_trans (dropWhile_length_le _ _) hrest)⟩)
        rw [List.cons_append, List.takeWhile_append_dropWhile]
      · refine join_step (line :: rest.takeWhile ulistCont) (rest.dropWhile ulistCont) ?_ (by simp) _
          (fun hr => by simp [hr, parseBlocksGo_nil])
          (fun hr => ⟨by
              simpa using parseBlocksGo_ne_nil f _ _ hr
                (le_trans (dropWhile_length_le _ _) hrest),
            ih _ _ (le_trans (dropWhile_length_le _ _) hrest)⟩)
        rw [List.cons_append, List.takeWhile_append_dropWhile]
      · refine join_step (line :: rest.takeWhile olistCont) (rest.dropWhile olistCont) ?_ (by simp) _
          (fun hr => by simp [hr, parseBlocksGo_nil])
          (fun hr => ⟨by
              simpa using parseBlocksGo_ne_nil f _ _ hr
                (le_trans (dropWhile_length_le _ _) hrest),
            ih _ _ (le_trans (dropWhile_length_le _ _) hrest)⟩)
        rw [List.cons_append, List.takeWhile_append_dropWhile]
      · refine join_step (line :: rest.takeWhile paraCont) (rest.dropWhile paraCont) ?_ (by simp) _
          (fun hr => by simp [hr, parseBlocksGo_nil])
          (fun hr => ⟨by
              simpa using parseBlocksGo_ne_nil f _ _ hr
                (le_trans (dropWhile_length_le _ _) hrest),
            ih _ _ (le_trans (dropWhile_length_le _ _) hrest)⟩)
        rw [List.cons_append, List.takeWhile_append_dropWhile]

theorem chained_le :
    ∀ (bs : List Block) off, Chained off bs → ∀ b ∈ bs, off ≤ b.sourceOffset := by
  intro bs
  induction bs with
  | nil => intro off h b hb; simp at hb
  | cons a t ih =>
    intro off h b hb
    rcases List.mem_cons.mp hb with rfl | hb2
    · exact le_of_eq h.1.symm
    · have := ih _ h.2 b hb2
      omega

/-- The chain layout implies strict source ordering with disjoint spans. -/
theorem chained_pairwise :
    ∀ (bs : List Block) off, Chained off bs →
      bs.Pairwise (fun a b => a.sourceOffset + a.source.length < b.sourceOffset) := by
  intro bs
  induction bs with
  | nil => intro off h; exact List.Pairwise.nil
  | cons a t ih =>
    intro off h
    refine List.Pairwise.cons ?_ (ih _ h.2)
    intro b hb
    have h2 := chained_le t _ h.2 b hb
    have h3 := h.1
    omega

/-- C2 counterexample: parsing "a\n" yields a paragraph block "a" and a
blank block "", whose plain concatenation "a" does not reconstruct the
input — the newline separating the two lines belongs to neither block. -/
theorem c2_span_coverage_counterexample :
    (parseBlocks ("a\n".toList)).map (fun b => (b.type, b.source, b.sourceOffset)) =
      [(.paragraph, "a".toList, 0), (.blank, [], 2)] ∧
    ((parseBlocks ("a\n".toList)).map (fun b => b.source)).flatten ≠ "a\n".toList := by
  decide

/-- C2 amended: for every input, `parseBlocks` returns blocks in strict
source order with non-overlapping source spans (each block's span ends
strictly before the next block's offset, the separating newline belonging to
neither), and the block sources joined with "\n" separators — rather than
plainly concatenated — reconstruct the original input exactly. -/
theorem c2_span_coverage_amended (content : Str) :
    (parseBlocks content).Pairwise
      (fun a b => a.sourceOffset + a.source.length < b.sourceOffset) ∧
    joinNL ((parseBlocks content).map (fun b => b.source)) = content := by
  constructor
  · exact chained_pairwise _ 0 (parseBlocksGo_chained _ _ 0)
  · unfold parseBlocks
    rw [parseBlocksGo_join _ _ 0 le_rfl, joinNL_splitLines]

/-! Renderer (`renderBlocks`). -/

/-- The box-drawing horizontal bar used for rules. -/
def boxH : Char := Char.ofNat 0x2500

/-- The box-drawing vertical bar used for blockquotes. -/
def boxV : Char := Char.ofNat 0x2502

/-- The bullet glyph used for unordered list items. -/
def bulletChar : Char := Char.ofNat 0x2022

/-- Heading display marker for a level (levels above four cannot occur). -/
def headingPrefixStr (level : Nat) : Str :=
  if level = 1 then "# ".toList
  else if level = 2 then "## ".toList
  else if level = 3 then "### ".toList
  else "#### ".toList

/-- Lookup of the per-level heading style, falling back to level one. -/
def headingStyle (level : Nat) : SegmentStyle :=
  if level = 1 then mdH1
  else if level = 2 then mdH2
  else if level = 3 then mdH3
  else if level = 4 then mdH4
  else mdH1

/-- `source.replace(/^#+\s+/, "")`: strip all leading hashes and the greedy
whitespace run after them, when that pattern matches at the start. -/
def stripHeading (l : Str) : Str :=
  if 1 ≤ headingHashes l ∧ (l[headingHashes l]?).elim false jsWs then
    (l.dropWhile (fun c => c == '#')).dropWhile jsWs
  else l

/-- `quoteLine.replace(/^>\s?/, "")`: strip the marker and at most one
whitespace character. -/
def stripQuote (l : Str) : Str :=
  match l with
  | '>' :: rest =>
    match rest with
    | c :: rest2 => if jsWs c then rest2 else rest
    | [] => []
  | _ => l

/-- `listLine.replace(/^[-*+]\s+/, "")`. -/
def stripUlistMarker (l : Str) : Str :=
  match l with
  | c :: rest =>
    if (c == '-' || c == '*' || c == '+') && (rest.head?).elim false jsWs then
      rest.dropWhile jsWs
    else l
  | [] => []

/-- Follow-up `.replace(/^\d+\.\s+/, "")` applied to the previous result. -/
def stripOlistMarker (l : Str) : Str :=
  let k := (l.takeWhile Char.isDigit).length
  if 1 ≤ k ∧ l[k]? = some '.' ∧ (l[k+1]?).elim false jsWs then
    (l.drop (k+1)).dropWhile jsWs
  else l

/-- The two marker replacements applied in sequence, as in the source. -/
def stripListMarkers (l : Str) : Str := stripOlistMarker (stripUlistMarker l)

/-- Display bullet for ordered items: the decimal item number, a dot and a
space. -/
def orderedBullet (n : Nat) : Str := (Nat.repr n).toList ++ ['.', ' ']

/-- Renumbering pass `wl.lineNumber = lineNumber++` over wrapped lines. -/
def renumber : List RenderedLine → Nat → List RenderedLine × Nat
  | [], n => ([], n)
  | l :: rest, n =>
    let p := renumber rest (n + 1)
    ({ l with lineNumber := n } :: p.1, p.2)

/-- Renumbering pass for blockquote and list lines, which additionally
overwrite each wrapped line's source span with the whole physical line's
(the list branch also resets `indent`, which `wordWrapSegments` already set
to zero). -/
def renumberAt (off len : Nat) : List RenderedLine → Nat → List RenderedLine × Nat
  | [], n => ([], n)
  | l :: rest, n =>
    let p := renumberAt off len rest (n + 1)
    ({ l with lineNumber := n, sourceOffset := off, sourceLength := len, indent := 0 } :: p.1,
      p.2)

/-- Code-block rendering: one line per source line, skipping the fence lines
while still advancing the offset and the line number. -/
def renderCodeLines : List Str → Nat → Nat → List RenderedLine × Nat
  | [], _, n => ([], n)
  | cl :: rest, off, n =>
    if startsCode cl then renderCodeLines rest (off + cl.length + 1) (n + 1)
    else
      let p := renderCodeLines rest (off + cl.length + 1) (n + 1)
      (⟨n, off, cl.length, [⟨cl, off, cl.length, mdCodeBlock⟩], 0, false⟩ :: p.1, p.2)

/-- Blockquote rendering: per line, a `│ ` marker segment covering the
stripped marker plus the inline-parsed remainder, wrapped at width − 2. -/
def renderQuoteLines (width : Nat) : List Str → Nat → Nat → List RenderedLine × Nat
  | [], _, n => ([], n)
  | ql :: rest, off, n =>
    let text := stripQuote ql
    let plen := ql.length - text.length
    let segs := ⟨[boxV, ' '], off, plen, { color := some "gray" }⟩ ::
      parseInline text (off + plen) mdBlockquote
    let p1 := renumberAt off ql.length (wordWrapSegments segs (width - 2)) n
    let p2 := renderQuoteLines width rest (off + ql.length + 1) p1.2
    (p1.1 ++ p2.1, p2.2)

/-- List rendering: per non-blank line, a bullet segment covering the
stripped marker plus the inline-parsed remainder, wrapped at width − 2;
blank lines advance the counters only. The item number grows only for
ordered bullets. -/
def renderListLines (width : Nat) (ordered : Bool) :
    List Str → Nat → Nat → Nat → List RenderedLine × Nat
  | [], _, n, _ => ([], n)
  | ll :: rest, off, n, itemNum =>
    if isBlankLine ll then
      renderListLines width ordered rest (off + ll.length + 1) (n + 1) itemNum
    else
      let bullet := if ordered then orderedBullet itemNum else [bulletChar, ' ']
      let text := stripListMarkers ll
      let plen := ll.length - text.length
      let segs := ⟨bullet, off, plen, { color := some "cyan" }⟩ ::
        parseInline text (off + plen) {}
      let p1 := renumberAt off ll.length (wordWrapSegments segs (width - 2)) n
      let p2 := renderListLines width ordered rest (off + ll.length + 1) p1.2
        (if ordered then itemNum + 1 else itemNum)
      (p1.1 ++ p2.1, p2.2)

/-- Rendering of one block, given the next line number; returns the lines
and the updated line number. -/
def renderBlock (width : Nat) (b : Block) (n : Nat) : List RenderedLine × Nat :=
  match b.type with
  | .blank =>
    ([⟨n, b.sourceOffset, b.source.length,
       [⟨[], b.sourceOffset, b.source.length, {}⟩], 0, true⟩], n + 1)
  | .heading =>
    let level := b.level.getD 1
    let pre := headingPrefixStr level
    let text := stripHeading b.source
    let style := headingStyle level
    let segs := ⟨pre, b.sourceOffset, pre.length, { style with dimColor := some true }⟩ ::
      parseInline text (b.sourceOffset + pre.length) style
    renumber (wordWrapSegments segs width) n
  | .hr =>
    ([⟨n, b.sourceOffset, b.source.length,
       [⟨List.replicate (min (width - 4) 60) boxH, b.sourceOffset, b.source.length,
         { color := some "gray", dimColor := some true }⟩], 0, false⟩], n + 1)
  | .codeBlock => renderCodeLines (splitLines b.source) b.sourceOffset n
  | .blockquote => renderQuoteLines width (splitLines b.source) b.sourceOffset n
  | .list =>
    renderListLines width (b.ordered.getD false) (splitLines b.source) b.sourceOffset n 1
  | .paragraph =>
    let fullPara := joinSpace (splitLines b.source)
    renumber (wordWrapSegments (parseInline fullPara b.sourceOffset {}) width) n

/-- `renderBlocks(blocks, terminalWidth)`. -/
def renderBlocks (blocks : List Block) (width : Nat) : List RenderedLine :=
  (blocks.foldl (fun acc b =>
    let p := renderBlock width b acc.2
    (acc.1 ++ p.1, p.2)) ([], 1)).1

/-! Intra-segment offset mapping (claims C1 and C4). -/

/-- Intra-segment mapping of a segment relative to the inline parser's
input `s` at base offset `base`: display position `i` within the segment
corresponds to input position `sourceOffset - base + i`. -/
def SegMapsTo (s : Str) (base : Nat) (seg : LineSegment) : Prop :=
  base ≤ seg.sourceOffset ∧
    ∀ i < seg.text.length, s[seg.sourceOffset - base + i]? = seg.text[i]?

theorem getElem?_drop_take {s : Str} {j k i : Nat}
    (h : i < ((s.drop j).take k).length) :
    s[j + i]? = ((s.drop j).take k)[i]? := by
  rw [List.getElem?_take]
  have hk : i < k := by
    simp at h
    omega
  rw [if_pos hk, List.getElem?_drop]

/-- Every segment of the `mkSeg` shape satisfies the intra-segment mapping
and displays exactly `sourceLength` characters. -/
theorem mkSeg_mapsTo (s : Str) (base j k : Nat) (st : SegmentStyle) :
    SegMapsTo s base (mkSeg s base j k st) := by
  refine ⟨Nat.le_add_right _ _, ?_⟩
  intro i hi
  simp only [mkSeg] at hi ⊢
  rw [Nat.add_sub_cancel_left]
  exact getElem?_drop_take hi

theorem mkSeg_sourceLength (s : Str) (base j k : Nat) (st : SegmentStyle) :
    (mkSeg s base j k st).sourceLength = (mkSeg s base j k st).text.length := rfl

/-- Every segment emitted by the inline scan loop is a contiguous slice of
the input tagged with the matching base-relative offset. -/
theorem parseInlineGo_shape (s : Str) (base : Nat) (bstyle : SegmentStyle) :
    ∀ fuel lastEnd, ∀ seg ∈ parseInlineGo s base bstyle fuel lastEnd,
      ∃ j k st, seg = mkSeg s base j k st := by
  intro fuel
  induction fuel with
  | zero =>
    intro lastEnd seg hseg
    simp only [parseInlineGo] at hseg
    split at hseg
    · simp only [List.mem_singleton] at hseg
      exact ⟨_, _, _, hseg⟩
    · simp at hseg
  | succ f ih =>
    intro lastEnd seg hseg
    simp only [parseInlineGo] at hseg
    split at hseg
    · split at hseg
      · simp only [List.mem_singleton] at hseg
        exact ⟨_, _, _, hseg⟩
      · simp at hseg
    · rcases List.mem_append.mp hseg with h1 | h1
      · split at h1
        · simp only [List.mem_singleton] at h1
          exact ⟨_, _, _, h1⟩
        · simp at h1
      · rcases List.mem_cons.mp h1 with rfl | h2
        · exact ⟨_, _, _, rfl⟩
        · exact ih _ seg h2

theorem parseInline_shape (s : Str) (base : Nat) (bstyle : SegmentStyle) :
    ∀ seg ∈ parseInline s base bstyle, ∃ j k st, seg = mkSeg s base j k st := by
  intro seg hseg
  simp only [parseInline] at hseg
  split at hseg
  · simp only [List.mem_singleton] at hseg
    exact ⟨_, _, _, hseg⟩
  · exact parseInlineGo_shape s base bstyle _ 0 seg hseg

theorem parseInline_mapsTo (s : Str) (base : Nat) (bstyle : SegmentStyle) :
    ∀ seg ∈ parseInline s base bstyle, SegMapsTo s base seg := by
  intro seg hseg
  obtain ⟨j, k, st, rfl⟩ := parseInline_shape s base bstyle seg hseg
  exact mkSeg_mapsTo s base j k st

theorem parseInline_ne_nil (s : Str) (base : Nat) (bstyle : SegmentStyle) :
    parseInline s base bstyle ≠ [] := by
  simp only [parseInline]
  split
  · simp
  · rename_i heq
    simpa [List.isEmpty_iff] using heq

/-- Sub-slice relation produced by the reflow and overlay passes: the
child's text is a contiguous slice of the parent's and its source offset is
shifted by the slice start. -/
def SubSegOf (parent child : LineSegment) : Prop :=
  ∃ a n, child.text = (parent.text.drop a).take n ∧
    child.sourceOffset = parent.sourceOffset + a

theorem segMapsTo_of_subSeg {s : Str} {base : Nat} {parent child : LineSegment}
    (hp : SegMapsTo s base parent) (hc : SubSegOf parent child) :
    SegMapsTo s base child := by
  obtain ⟨hble, hmap⟩ := hp
  obtain ⟨a, n, htext, hoff⟩ := hc
  refine ⟨by omega, ?_⟩
  intro i hi
  have hi2 : a + i < parent.text.length := by
    rw [htext] at hi
    simp at hi
    omega
  have h3 : child.text[i]? = parent.text[a + i]? := by
    rw [htext, List.getElem?_take, if_pos ?_, List.getElem?_drop]
    rw [htext] at hi
    simp at hi
    omega
  rw [h3, hoff, show parent.sourceOffset + a - base + i
      = parent.sourceOffset - base + (a + i) by omega]
  exact hmap (a + i) hi2

/-- Every segment produced by the inner reflow loop is a sub-slice of one
of the input segments. -/
theorem overlapSlices_subSeg (lineStart lineEnd : Nat) :
    ∀ (segs : List LineSegment) (segOffset : Nat),
      ∀ child ∈ overlapSlices lineStart lineEnd segs segOffset,
        ∃ parent ∈ segs, SubSegOf parent child := by
  intro segs
  induction segs with
  | nil =>
    intro segOffset child h
    simp [overlapSlices] at h
  | cons seg rest ih =>
    intro segOffset child hchild
    simp only [overlapSlices] at hchild
    split at hchild
    · split at hchild
      · rcases List.mem_cons.mp hchild with rfl | h2
        · exact ⟨seg, List.mem_cons_self _ _, _, _, rfl, rfl⟩
        · obtain ⟨p, hp, hsub⟩ := ih _ child h2
          exact ⟨p, List.mem_cons_of_mem _ hp, hsub⟩
      · obtain ⟨p, hp, hsub⟩ := ih _ child hchild
        exact ⟨p, List.mem_cons_of_mem _ hp, hsub⟩
    · obtain ⟨p, hp, hsub⟩ := ih _ child hchild
      exact ⟨p, List.mem_cons_of_mem _ hp, hsub⟩

/-- Every segment of every line built by the outer reflow loop is a
sub-slice of one of the input segments. -/
theorem wwsGo_subSeg (segments : List LineSegment) (fullText : Str) :
    ∀ wls textOffset lineNumber,
      ∀ line ∈ wwsGo segments fullText wls textOffset lineNumber,
        ∀ child ∈ line.segments, ∃ parent ∈ segments, SubSegOf parent child := by
  intro wls
  induction wls with
  | nil =>
    intro textOffset lineNumber line hline
    simp [wwsGo] at hline
  | cons wl rest ih =>
    intro textOffset lineNumber line hline child hchild
    simp only [wwsGo] at hline
    split at hline
    · exact ih _ _ line hline child hchild
    · rcases List.mem_cons.mp hline with rfl | h2
      · exact overlapSlices_subSeg _ _ segments 0 child hchild
      · exact ih _ _ line h2 child hchild

theorem headOff_parseInline (s : Str) (base : Nat) (bstyle : SegmentStyle) :
    base ≤ headOff (parseInline s base bstyle) := by
  cases h : parseInline s base bstyle with
  | nil => exact absurd h (parseInline_ne_nil s base bstyle)
  | cons p r =>
    have hp : p ∈ parseInline s base bstyle := by
      rw [h]
      exact List.mem_cons_self _ _
    have := (parseInline_mapsTo s base bstyle p hp).1
    simpa [headOff] using this

/-- The reflow of the inline parser's segments preserves the intra-segment
mapping (the blank line emitted for empty flat text has no characters, and
its offset is the first inline segment's, which is at or after the base). -/
theorem wordWrapSegments_parseInline_mapsTo (s : Str) (base : Nat)
    (bstyle : SegmentStyle) (width : Nat) :
    ∀ line ∈ wordWrapSegments (parseInline s base bstyle) width,
      ∀ seg ∈ line.segments, SegMapsTo s base seg := by
  intro line hline seg hseg
  simp only [wordWrapSegments] at hline
  split at hline
  · simp only [List.mem_singleton] at hline
    subst hline
    simp only [List.mem_singleton] at hseg
    subst hseg
    exact ⟨headOff_parseInline s base bstyle, by intro i hi; simp at hi⟩
  · obtain ⟨parent, hp, hsub⟩ := wwsGo_subSeg _ _ _ _ _ line hline seg hseg
    exact segMapsTo_of_subSeg (parseInline_mapsTo s base bstyle parent hp) hsub

/-- C1 counterexample: on content "a\nb" the pipeline produces a single
paragraph line whose only segment has text "a b" and sourceOffset 0 — the
newline at source offset 1 is displayed as a space, so display position 1
does not show the source character at offset 0 + 1 and the claimed
intra-segment mapping fails for the full pipeline. -/
theorem c1_intra_segment_counterexample :
    renderBlocks (parseBlocks ("a\nb".toList)) 80 =
      [⟨1, 0, 3, [⟨"a b".toList, 0, 3, { type := some "body" }⟩], 0, false⟩] ∧
    ("a\nb".toList)[0 + 1]? ≠ ("a b".toList)[1]? := by decide

/-- C1 amended: the one-to-one intra-segment mapping holds relative to the
inline parser's input rather than the whole document: every segment emitted
by `parseInline(text, base, style)` and every segment of every line that
`wordWrapSegments` derives from those segments maps display position `i` to
input position `sourceOffset − base + i`. At the `renderBlocks` level the
mapping fails whenever the display text is not copied verbatim from the
source (paragraph lines joined with spaces, normalized heading prefixes,
rule glyphs, quote and list markers). -/
theorem c1_intra_segment_amended (s : Str) (base : Nat) (bstyle : SegmentStyle)
    (width : Nat) :
    (∀ seg ∈ parseInline s base bstyle, SegMapsTo s base seg) ∧
    (∀ line ∈ wordWrapSegments (parseInline s base bstyle) width,
      ∀ seg ∈ line.segments, SegMapsTo s base seg) :=
  ⟨parseInline_mapsTo s base bstyle,
    wordWrapSegments_parseInline_mapsTo s base bstyle width⟩

/-- C1 amended witness: the mapping at a concrete inline input and a
concrete reflowed line. -/
theorem c1_intra_segment_amended_witness :
    SegMapsTo ("**bold** text".toList) 0
      ⟨" text".toList, 8, 5, { type := some "body" }⟩ ∧
    SegMapsTo ("**bold** text".toList) 0
      ⟨"bold".toList, 2, 4, { bold := some true, type := some "bold" }⟩ :=
  ⟨(c1_intra_segment_amended ("**bold** text".toList) 0 {} 9).1
      ⟨" text".toList, 8, 5, { type := some "body" }⟩ (by decide),
    (c1_intra_segment_amended ("**bold** text".toList) 0 {} 9).1
      ⟨"bold".toList, 2, 4, { bold := some true, type := some "bold" }⟩ (by decide)⟩

/-- C4 counterexample: on "**bold** text" the inline parser emits the plain
segment " text" with sourceOffset 8 — the offset of the space just after
the closing delimiter — not 9 as the claim states; no emitted segment has
sourceOffset 9. -/
theorem c4_inline_offsets_counterexample :
    (parseInline ("**bold** text".toList) 0 {}).map
        (fun seg => (seg.text, seg.sourceOffset, seg.sourceLength)) =
      [("bold".toList, 2, 4), (" text".toList, 8, 5)] ∧
    (9 : Nat) ∉ (parseInline ("**bold** text".toList) 0 {}).map
        (fun seg => seg.sourceOffset) := by decide

/-- C4 amended: on "**bold** text" the inline parser emits exactly the
segment ("bold", sourceOffset 2, sourceLength 4, bold style) followed by
(" text", sourceOffset 8, sourceLength 5) — offset 8, the space, rather
than the claimed 9; in general a matched span's offset points to the first
character after the opening delimiters and every emitted segment's
`sourceLength` equals its content length, with display position `i`
corresponding to input position `sourceOffset − base + i`. -/
theorem c4_inline_offsets_amended :
    (parseInline ("**bold** text".toList) 0 {} =
      [⟨"bold".toList, 2, 4, { bold := some true, type := some "bold" }⟩,
       ⟨" text".toList, 8, 5, { type := some "body" }⟩]) ∧
    (∀ (s : Str) (base : Nat) (bstyle : SegmentStyle),
      ∀ seg ∈ parseInline s base bstyle,
        seg.sourceLength = seg.text.length ∧ SegMapsTo s base seg) := by
  refine ⟨by decide, fun s base bstyle seg hseg => ?_⟩
  obtain ⟨j, k, st, rfl⟩ := parseInline_shape s base bstyle seg hseg
  exact ⟨rfl, mkSeg_mapsTo s base j k st⟩

/-- C4 amended witness at a concrete segment. -/
theorem c4_inline_offsets_amended_witness :
    (⟨"bold".toList, 2, 4, { bold := some true, type := some "bold" }⟩ :
        LineSegment).sourceLength =
      ((⟨"bold".toList, 2, 4, { bold := some true, type := some "bold" }⟩ :
        LineSegment)).text.length ∧
    SegMapsTo ("**bold** text".toList) 0
      ⟨"bold".toList, 2, 4, { bold := some true, type := some "bold" }⟩ :=
  c4_inline_offsets_amended.2 ("**bold** text".toList) 0 {}
    ⟨"bold".toList, 2, 4, { bold := some true, type := some "bold" }⟩ (by decide)

/-! Overlay passes (`applyDiffs` and `applySelection`). -/

inductive DiffType
  | add
  | delete
deriving Repr, DecidableEq

/-- An externally supplied edit-diff range. -/
structure DocumentDiff where
  startOffset : Nat
  endOffset : Nat
  type : DiffType
deriving Repr, DecidableEq

/-- `DIFF_STYLES[diff.type]`. -/
def diffStyle : DiffType → SegmentStyle
  | .add => diffStyleAdd
  | .delete => diffStyleDelete

/-- Per-diff splitting loop over one segment, carrying the write cursor
`textPos`: the part before each diff, the styled intersection, and after the
last diff the remaining tail. -/
def diffPieces (seg : LineSegment) : List DocumentDiff → Nat → List LineSegment
  | [], textPos =>
    if textPos < seg.text.length then
      [{ seg with
          text := seg.text.drop textPos
          sourceOffset := seg.sourceOffset + textPos
          sourceLength := seg.text.length - textPos }]
    else []
  | d :: ds, textPos =>
    let dS := d.startOffset - seg.sourceOffset
    let dE := min seg.text.length (d.endOffset - seg.sourceOffset)
    (if textPos < dS then
      [{ seg with
          text := (seg.text.drop textPos).take (dS - textPos)
          sourceOffset := seg.sourceOffset + textPos
          sourceLength := dS - textPos }]
    else []) ++
    (if dS < dE then
      [{ seg with
          text := (seg.text.drop dS).take (dE - dS)
          sourceOffset := seg.sourceOffset + dS
          sourceLength := dE - dS
          style := styleMerge seg.style (diffStyle d.type) }]
    else []) ++
    diffPieces seg ds dE

/-- Diff pass for one segment: filter the overlapping diffs against the
segment's source span, sort them by start offset (stably, as the JavaScript
sort does), and split. -/
def applyDiffsSeg (diffs : List DocumentDiff) (seg : LineSegment) : List LineSegment :=
  if (diffs.filter (fun d => d.startOffset < seg.sourceOffset + seg.sourceLength &&
      seg.sourceOffset < d.endOffset)).isEmpty then [seg]
  else
    diffPieces seg
      (List.insertionSort (fun a b => a.startOffset ≤ b.startOffset)
        (diffs.filter (fun d => d.startOffset < seg.sourceOffset + seg.sourceLength &&
          seg.sourceOffset < d.endOffset))) 0

/-- `applyDiffs(segments, diffs)`. -/
def applyDiffs (segments : List LineSegment) (diffs : List DocumentDiff) :
    List LineSegment :=
  if diffs.isEmpty then segments
  else (segments.map (applyDiffsSeg diffs)).flatten

/-- Selection pass for one segment, with the normalized selection range. -/
def applySelectionSeg (start finish : Nat) (seg : LineSegment) : List LineSegment :=
  if finish ≤ seg.sourceOffset ∨ start ≥ seg.sourceOffset + seg.sourceLength then [seg]
  else
    if min seg.text.length (finish - seg.sourceOffset) ≤ start - seg.sourceOffset then
      [seg]
    else
      (if 0 < start - seg.sourceOffset then
        [{ seg with
            text := seg.text.take (start - seg.sourceOffset)
            sourceLength := start - seg.sourceOffset }]
      else []) ++
      (if 0 < ((seg.text.drop (start - seg.sourceOffset)).take
          (min seg.text.length (finish - seg.sourceOffset) -
            (start - seg.sourceOffset))).length then
        [{ seg with
            text := (seg.text.drop (start - seg.sourceOffset)).take
              (min seg.text.length (finish - seg.sourceOffset) -
                (start - seg.sourceOffset))
            sourceOffset := seg.sourceOffset + (start - seg.sourceOffset)
            sourceLength := min seg.text.length (finish - seg.sourceOffset) -
              (start - seg.sourceOffset)
            style := styleMerge seg.style selectionStyle }]
      else []) ++
      (if min seg.text.length (finish - seg.sourceOffset) < seg.text.length then
        [{ seg with
            text := seg.text.drop (min seg.text.length (finish - seg.sourceOffset))
            sourceOffset := seg.sourceOffset +
              min seg.text.length (finish - seg.sourceOffset)
            sourceLength := seg.text.length -
              min seg.text.length (finish - seg.sourceOffset) }]
      else [])

/-- `applySelection(segments, selectionStart, selectionEnd)`. -/
def applySelection (segments : List LineSegment)
    (selectionStart selectionEnd : Option Nat) : List LineSegment :=
  match selectionStart, selectionEnd with
  | some s, some e =>
    if s = e then segments
    else (segments.map (applySelectionSeg (min s e) (max s e))).flatten
  | _, _ => segments

/-! Overlay preservation (claim C3). -/

/-- The display characters of a segment, each tagged with its source
offset (`sourceOffset + position`). -/
def charsFrom : Str → Nat → List (Char × Nat)
  | [], _ => []
  | c :: t, off => (c, off) :: charsFrom t (off + 1)

/-- Characters-with-offsets view of one segment. -/
def segChars (seg : LineSegment) : List (Char × Nat) :=
  charsFrom seg.text seg.sourceOffset

/-- Characters-with-offsets view of a segment run. -/
def flattenChars (segs : List LineSegment) : List (Char × Nat) :=
  (segs.map segChars).flatten

theorem flattenChars_append (a b : List LineSegment) :
    flattenChars (a ++ b) = flattenChars a ++ flattenChars b := by
  simp [flattenChars]

theorem charsFrom_append (a b : Str) (off : Nat) :
    charsFrom (a ++ b) off = charsFrom a off ++ charsFrom b (off + a.length) := by
  induction a generalizing off with
  | nil => simp [charsFrom]
  | cons c t ih =>
    show (c, off) :: charsFrom (t ++ b) (off + 1) =
      ((c, off) :: charsFrom t (off + 1)) ++ charsFrom b (off + (t.length + 1))
    rw [ih (off + 1), show off + 1 + t.length = off + (t.length + 1) by omega]
    rfl

/-- Splitting a suffix of the character view at a later cut point. -/
theorem charsFrom_split (t : Str) (off u v : Nat) (huv : u ≤ v) :
    charsFrom (t.drop u) (off + u) =
      charsFrom ((t.drop u).take (v - u)) (off + u) ++
        charsFrom (t.drop v) (off + v) := by
  have hdd : (t.drop u).drop (v - u) = t.drop v := by
    rw [List.drop_drop]
    congr 1
    omega
  conv_lhs => rw [← List.take_append_drop (v - u) (t.drop u)]
  rw [charsFrom_append, hdd]
  congr 1
  cases hvt : t.drop v with
  | nil => simp [charsFrom]
  | cons c r =>
    have hvlen : v < t.length := by
      by_contra hc
      rw [List.drop_eq_nil_of_le (by omega)] at hvt
      exact absurd hvt (by simp)
    have hlen : (List.take (v - u) (List.drop u t)).length = v - u := by
      simp only [List.length_take, List.length_drop]
      omega
    rw [hlen, show off + u + (v - u) = off + v by omega]

/-- Character-and-offset preservation of the per-segment diff splitting,
for a chain of well-formed, start-sorted, pairwise disjoint diffs that all
end after the segment start and start at or after the write cursor. -/
theorem diffPieces_chars (seg : LineSegment) :
    ∀ (ds : List DocumentDiff) (tp : Nat),
      (∀ d ∈ ds, d.startOffset < d.endOffset) →
      (∀ d ∈ ds, seg.sourceOffset < d.endOffset) →
      List.Pairwise (fun a b => a.endOffset ≤ b.startOffset) ds →
      (∀ d ∈ ds, tp ≤ d.startOffset - seg.sourceOffset) →
      flattenChars (diffPieces seg ds tp) =
        charsFrom (seg.text.drop tp) (seg.sourceOffset + tp) := by
  intro ds
  induction ds with
  | nil =>
    intro tp _ _ _ _
    simp only [diffPieces]
    split
    · simp [flattenChars, segChars]
    · have hnil : seg.text.drop tp = [] := List.drop_eq_nil_of_le (by omega)
      simp [flattenChars, hnil, charsFrom]
  | cons d ds ih =>
    intro tp hwf hend hpw hts
    have hwf0 : d.startOffset < d.endOffset := hwf d (List.mem_cons_self _ _)
    have hend0 : seg.sourceOffset < d.endOffset := hend d (List.mem_cons_self _ _)
    have hts0 : tp ≤ d.startOffset - seg.sourceOffset := hts d (List.mem_cons_self _ _)
    have hih := ih (min seg.text.length (d.endOffset - seg.sourceOffset))
      (fun d' hd' => hwf d' (List.mem_cons_of_mem _ hd'))
      (fun d' hd' => hend d' (List.mem_cons_of_mem _ hd'))
      hpw.of_cons
      (fun d' hd' => by
        have h1 := List.rel_of_pairwise_cons hpw hd'
        have := Nat.sub_le_sub_right h1 seg.sourceOffset
        omega)
    simp only [diffPieces, flattenChars_append, hih]
    by_cases hcase : d.startOffset - seg.sourceOffset <
        min seg.text.length (d.endOffset - seg.sourceOffset)
    · -- the diff intersects the display text
      rw [if_pos hcase]
      have hsplit1 := charsFrom_split seg.text seg.sourceOffset tp
        (d.startOffset - seg.sourceOffset) hts0
      have hsplit2 := charsFrom_split seg.text seg.sourceOffset
        (d.startOffset - seg.sourceOffset)
        (min seg.text.length (d.endOffset - seg.sourceOffset)) (le_of_lt hcase)
      rw [hsplit1, hsplit2]
      have hbefore : flattenChars
          (if tp < d.startOffset - seg.sourceOffset then
            [{ seg with
                text := (seg.text.drop tp).take (d.startOffset - seg.sourceOffset - tp)
                sourceOffset := seg.sourceOffset + tp
                sourceLength := d.startOffset - seg.sourceOffset - tp }]
          else []) =
          charsFrom ((seg.text.drop tp).take (d.startOffset - seg.sourceOffset - tp))
            (seg.sourceOffset + tp) := by
        split
        · simp [flattenChars, segChars]
        · have : d.startOffset - seg.sourceOffset - tp = 0 := by omega
          simp [flattenChars, this, charsFrom]
      rw [hbefore]
      simp [flattenChars, segChars]
    · -- the diff lies entirely at or beyond the end of the display text
      rw [if_neg hcase]
      have hLle : min seg.text.length (d.endOffset - seg.sourceOffset)
          = seg.text.length ∧ seg.text.length ≤ d.startOffset - seg.sourceOffset := by
        rcases Nat.lt_or_ge (d.endOffset - seg.sourceOffset) seg.text.length with h | h
        · exfalso
          have : d.startOffset - seg.sourceOffset < d.endOffset - seg.sourceOffset := by
            omega
          omega
        · constructor
          · omega
          · omega
      obtain ⟨hmin, hLS⟩ := hLle
      rw [hmin]
      have hnil : seg.text.drop seg.text.length = [] := List.drop_eq_nil_of_le le_rfl
      rw [hnil]
      have hbefore : flattenChars
          (if tp < d.startOffset - seg.sourceOffset then
            [{ seg with
                text := (seg.text.drop tp).take (d.startOffset - seg.sourceOffset - tp)
                sourceOffset := seg.sourceOffset + tp
                sourceLength := d.startOffset - seg.sourceOffset - tp }]
          else []) =
          charsFrom (seg.text.drop tp) (seg.sourceOffset + tp) := by
        split
        · have htake : (seg.text.drop tp).take (d.startOffset - seg.sourceOffset - tp)
              = seg.text.drop tp := by
            apply List.take_of_length_le
            simp only [List.length_drop]
            omega
          simp [flattenChars, segChars, htake]
        · have htp : seg.text.length ≤ tp := by omega
          have hnil2 : seg.text.drop tp = [] := List.drop_eq_nil_of_le htp
          simp [flattenChars, hnil2, charsFrom]
      rw [hbefore]
      simp [flattenChars, charsFrom]

instance : IsTotal DocumentDiff (fun a b => a.startOffset ≤ b.startOffset) :=
  ⟨fun a b => Nat.le_total a.startOffset b.startOffset⟩

instance : IsTrans DocumentDiff (fun a b => a.startOffset ≤ b.startOffset) :=
  ⟨fun _ _ _ hab hbc => Nat.le_trans hab hbc⟩

/-- Character-and-offset preservation of the diff pass on one segment, for
well-formed pairwise disjoint diff lists. -/
theorem applyDiffsSeg_chars (diffs : List DocumentDiff) (seg : LineSegment)
    (hwf : ∀ d ∈ diffs, d.startOffset < d.endOffset)
    (hdisj : List.Pairwise
      (fun a b => a.endOffset ≤ b.startOffset ∨ b.endOffset ≤ a.startOffset) diffs) :
    flattenChars (applyDiffsSeg diffs seg) = segChars seg := by
  unfold applyDiffsSeg
  split
  · simp [flattenChars]
  · have hperm := List.perm_insertionSort (fun a b => a.startOffset ≤ b.startOffset)
      (diffs.filter (fun d => d.startOffset < seg.sourceOffset + seg.sourceLength &&
        seg.sourceOffset < d.endOffset))
    have hsub := List.filter_sublist (p := fun d =>
      d.startOffset < seg.sourceOffset + seg.sourceLength &&
        seg.sourceOffset < d.endOffset) diffs
    have hmemf : ∀ d ∈ List.insertionSort (fun a b => a.startOffset ≤ b.startOffset)
        (diffs.filter (fun d => d.startOffset < seg.sourceOffset + seg.sourceLength &&
          seg.sourceOffset < d.endOffset)), d ∈ diffs ∧
          seg.sourceOffset < d.endOffset := by
      intro d hd
      have hd2 := hperm.mem_iff.mp hd
      have hd3 := List.mem_filter.mp hd2
      refine ⟨hd3.1, ?_⟩
      have := hd3.2
      simp at this
      exact this.2
    have hsorted : List.Pairwise (fun a b : DocumentDiff => a.startOffset ≤ b.startOffset)
        (List.insertionSort (fun a b => a.startOffset ≤ b.startOffset)
          (diffs.filter (fun d => d.startOffset < seg.sourceOffset + seg.sourceLength &&
            seg.sourceOffset < d.endOffset))) :=
      List.sorted_insertionSort _ _
    have hdisj2 : List.Pairwise
        (fun a b => a.endOffset ≤ b.startOffset ∨ b.endOffset ≤ a.startOffset)
        (List.insertionSort (fun a b => a.startOffset ≤ b.startOffset)
          (diffs.filter (fun d => d.startOffset < seg.sourceOffset + seg.sourceLength &&
            seg.sourceOffset < d.endOffset))) :=
      (hperm.symm).pairwise (hdisj.sublist hsub)
        (fun h => h.symm.imp (fun h1 => h1) (fun h1 => h1))
    have hchain : List.Pairwise (fun a b : DocumentDiff => a.endOffset ≤ b.startOffset)
        (List.insertionSort (fun a b => a.startOffset ≤ b.startOffset)
          (diffs.filter (fun d => d.startOffset < seg.sourceOffset + seg.sourceLength &&
            seg.sourceOffset < d.endOffset))) := by
      refine (hsorted.and hdisj2).imp_of_mem ?_
      intro a b ha hb hab
      rcases hab.2 with h | h
      · exact h
      · have hwfb := hwf b (hmemf b hb).1
        omega
    rw [diffPieces_chars seg _ 0
      (fun d hd => hwf d (hmemf d hd).1)
      (fun d hd => (hmemf d hd).2)
      hchain
      (fun d hd => Nat.zero_le _)]
    simp [segChars]

theorem flattenChars_flatten (l : List LineSegment) (f : LineSegment → List LineSegment)
    (h : ∀ seg ∈ l, flattenChars (f seg) = segChars seg) :
    flattenChars ((l.map f).flatten) = flattenChars l := by
  induction l with
  | nil => rfl
  | cons a t ih =>
    simp only [List.map_cons, List.flatten_cons]
    rw [flattenChars_append, h a (List.mem_cons_self _ _),
      ih (fun seg hseg => h seg (List.mem_cons_of_mem _ hseg))]
    simp [flattenChars]

/-- Character-and-offset preservation of the whole diff pass. -/
theorem applyDiffs_chars (segments : List LineSegment) (diffs : List DocumentDiff)
    (hwf : ∀ d ∈ diffs, d.startOffset < d.endOffset)
    (hdisj : List.Pairwise
      (fun a b => a.endOffset ≤ b.startOffset ∨ b.endOffset ≤ a.startOffset) diffs) :
    flattenChars (applyDiffs segments diffs) = flattenChars segments := by
  unfold applyDiffs
  split
  · rfl
  · exact flattenChars_flatten segments _
      (fun seg _ => applyDiffsSeg_chars diffs seg hwf hdisj)

/-- Character-and-offset preservation of the selection pass on one segment;
this holds for every selection range. -/
theorem applySelectionSeg_chars (start finish : Nat) (seg : LineSegment) :
    flattenChars (applySelectionSeg start finish seg) = segChars seg := by
  unfold applySelectionSeg
  split
  · simp [flattenChars]
  · split
    · simp [flattenChars]
    · rename_i hno hsel
      rw [flattenChars_append, flattenChars_append]
      have h1 := charsFrom_split seg.text seg.sourceOffset 0 (start - seg.sourceOffset)
        (Nat.zero_le _)
      have h2 := charsFrom_split seg.text seg.sourceOffset (start - seg.sourceOffset)
        (min seg.text.length (finish - seg.sourceOffset)) (by omega)
      simp only [List.drop_zero, Nat.sub_zero, Nat.add_zero] at h1
      have hfirst : flattenChars
          (if 0 < start - seg.sourceOffset then
            [{ seg with
                text := seg.text.take (start - seg.sourceOffset)
                sourceLength := start - seg.sourceOffset }]
          else []) =
          charsFrom (seg.text.take (start - seg.sourceOffset)) seg.sourceOffset := by
        split
        · simp [flattenChars, segChars]
        · have : start - seg.sourceOffset = 0 := by omega
          simp [flattenChars, this, charsFrom]
      have hlast : flattenChars
          (if min seg.text.length (finish - seg.sourceOffset) < seg.text.length then
            [{ seg with
                text := seg.text.drop (min seg.text.length (finish - seg.sourceOffset))
                sourceOffset := seg.sourceOffset +
                  min seg.text.length (finish - seg.sourceOffset)
                sourceLength := seg.text.length -
                  min seg.text.length (finish - seg.sourceOffset) }]
          else []) =
          charsFrom (seg.text.drop (min seg.text.length (finish - seg.sourceOffset)))
            (seg.sourceOffset + min seg.text.length (finish - seg.sourceOffset)) := by
        split
        · simp [flattenChars, segChars]
        · have : seg.text.drop (min seg.text.length (finish - seg.sourceOffset)) = [] :=
            List.drop_eq_nil_of_le (by omega)
          simp [flattenChars, this, charsFrom]
      have hmid : flattenChars
          (if 0 < ((seg.text.drop (start - seg.sourceOffset)).take
              (min seg.text.length (finish - seg.sourceOffset) -
                (start - seg.sourceOffset))).length then
            [{ seg with
                text := (seg.text.drop (start - seg.sourceOffset)).take
                  (min seg.text.length (finish - seg.sourceOffset) -
                    (start - seg.sourceOffset))
                sourceOffset := seg.sourceOffset + (start - seg.sourceOffset)
                sourceLength := min seg.text.length (finish - seg.sourceOffset) -
                  (start - seg.sourceOffset)
                style := styleMerge seg.style selectionStyle }]
          else []) =
          charsFrom ((seg.text.drop (start - seg.sourceOffset)).take
            (min seg.text.length (finish - seg.sourceOffset) - (start - seg.sourceOffset)))
            (seg.sourceOffset + (start - seg.sourceOffset)) := by
        split
        · simp [flattenChars, segChars]
        · rename_i hz
          have : (seg.text.drop (start - seg.sourceOffset)).take
              (min seg.text.length (finish - seg.sourceOffset) -
                (start - seg.sourceOffset)) = [] := by
            cases hr : (seg.text.drop (start - seg.sourceOffset)).take
                (min seg.text.length (finish - seg.sourceOffset) -
                  (start - seg.sourceOffset)) with
            | nil => rfl
            | cons c r =>
              exfalso
              apply hz
              rw [hr]
              simp
          simp [flattenChars, this, charsFrom]
      rw [hfirst, hmid, hlast, segChars, h1, h2]
      simp [List.append_assoc]

/-- Character-and-offset preservation of the whole selection pass. -/
theorem applySelection_chars (segments : List LineSegment)
    (selStart selEnd : Option Nat) :
    flattenChars (applySelection segments selStart selEnd) = flattenChars segments := by
  unfold applySelection
  split
  · split
    · rfl
    · exact flattenChars_flatten segments _
        (fun seg _ => applySelectionSeg_chars _ _ seg)
  · rfl

/-- C3 counterexample: with overlapping diff ranges the diff pass
duplicates text. On the single segment "abc" (offsets 0–2) and the
overlapping diffs [0,3) and [1,2), the write cursor regresses from 3 to 2
and the concatenated output text becomes "abcbc", not "abc" (the selection
pass is the identity here as no selection is set). -/
theorem c3_overlay_counterexample :
    ((applySelection
        (applyDiffs [⟨"abc".toList, 0, 3, {}⟩] [⟨0, 3, .add⟩, ⟨1, 2, .add⟩])
        none none).map (fun seg => seg.text)).flatten = "abcbc".toList ∧
    "abcbc".toList ≠ "abc".toList := by decide

/-- C3 amended: for every segment list, every selection range, and every
list of well-formed (start < end) pairwise non-overlapping diff ranges,
running `applyDiffs` then `applySelection` preserves the segments'
characters together with each character's source offset (hence the total
character count and the concatenated text); only styles change. For
overlapping diffs the diff pass can duplicate text. -/
theorem c3_overlay_amended (segments : List LineSegment)
    (diffs : List DocumentDiff) (selStart selEnd : Option Nat)
    (hwf : ∀ d ∈ diffs, d.startOffset < d.endOffset)
    (hdisj : List.Pairwise
      (fun a b => a.endOffset ≤ b.startOffset ∨ b.endOffset ≤ a.startOffset) diffs) :
    flattenChars (applySelection (applyDiffs segments diffs) selStart selEnd) =
      flattenChars segments := by
  rw [applySelection_chars, applyDiffs_chars segments diffs hwf hdisj]

/-- C3 amended witness at a concrete overlay computation. -/
theorem c3_overlay_amended_witness :
    flattenChars (applySelection
        (applyDiffs [⟨"abc".toList, 0, 3, {}⟩] [⟨1, 2, .add⟩]) (some 0) (some 2)) =
      flattenChars [⟨"abc".toList, 0, 3, {}⟩] :=
  c3_overlay_amended [⟨"abc".toList, 0, 3, {}⟩] [⟨1, 2, .add⟩] (some 0) (some 2)
    (by decide) (by decide)

/-! Terminal-to-offset resolution (`terminalToOffset`) and line/column
computation (`offsetToLineCol`). -/

/-- One displayed character's screen coordinates and source offset. -/
structure PositionMapping where
  terminalRow : Int
  terminalCol : Int
  sourceOffset : Nat
deriving Repr, DecidableEq

/-- Reduction `(prev, curr) => key(curr) < key(prev) ? curr : prev`: the
earliest element with minimal key wins. -/
def pickNearest {α : Type} (f : α → Nat) (a : α) (l : List α) : α :=
  l.foldl (fun prev curr => if f curr < f prev then curr else prev) a

/-- `Math.abs(r - y)`. -/
def distTo (y r : Int) : Nat := (r - y).natAbs

/-- `[...new Set(positionMap.map(p => p.terminalRow))].sort((a, b) => a - b)`:
the ascending list of the distinct rows (deduplication followed by a sort
produces exactly that list). -/
def rowsSorted (m : List PositionMapping) : List Int :=
  List.insertionSort (fun a b => a ≤ b) (m.map (·.terminalRow)).dedup

/-- `Math.min(...entries.map(p => p.sourceOffset))` on a nonempty list. -/
def minOffset (e : PositionMapping) (es : List PositionMapping) : Nat :=
  es.foldl (fun acc p => min acc p.sourceOffset) e.sourceOffset

/-- `Math.max(...entries.map(p => p.sourceOffset))` on a nonempty list. -/
def maxOffset (e : PositionMapping) (es : List PositionMapping) : Nat :=
  es.foldl (fun acc p => max acc p.sourceOffset) e.sourceOffset

/-- `terminalToOffset(x, y, positionMap)`. The `.error` result models the
TypeError thrown by `rows.reduce` on an empty array (reachable exactly when
the position map is empty); `.ok none` models an explicit `null` return. -/
def terminalToOffset (x y : Int) (positionMap : List PositionMapping) :
    Except Unit (Option Nat) :=
  match positionMap.find? (fun p => p.terminalRow == y && p.terminalCol == x) with
  | some p => .ok (some p.sourceOffset)
  | none =>
    match positionMap.filter (fun p => p.terminalRow == y) with
    | e :: es =>
      .ok (some ((pickNearest (fun p => distTo x p.terminalCol) e es).sourceOffset))
    | [] =>
      match rowsSorted positionMap with
      | [] => .error ()
      | r :: rs =>
        match positionMap.filter
            (fun p => p.terminalRow == pickNearest (distTo y) r rs) with
        | [] => .ok none
        | e :: es =>
          if y < pickNearest (distTo y) r rs then .ok (some (minOffset e es))
          else .ok (some (maxOffset e es))

/-! Properties of the nearest-match resolution (claim C6). -/

/-- Decomposition of the strict-compare reduction: the result is an element
of the list, every element strictly before it has strictly larger key, and
it minimizes the key over the whole list. -/
theorem pickNearest_spec {α : Type} (f : α → Nat) :
    ∀ (l : List α) (a : α),
      ∃ l₁ l₂, a :: l = l₁ ++ pickNearest f a l :: l₂ ∧
        (∀ b ∈ l₁, f (pickNearest f a l) < f b) ∧
        (∀ b ∈ a :: l, f (pickNearest f a l) ≤ f b) := by
  intro l
  induction l with
  | nil =>
    intro a
    refine ⟨[], [], rfl, by simp, ?_⟩
    intro b hb
    simp only [List.mem_singleton] at hb
    subst hb
    exact le_rfl
  | cons c t ih =>
    intro a
    have hstep : pickNearest f a (c :: t) = pickNearest f (if f c < f a then c else a) t :=
      rfl
    by_cases hc : f c < f a
    · obtain ⟨l₁, l₂, heq, hpre, hmin⟩ := ih c
      rw [hstep, if_pos hc]
      refine ⟨a :: l₁, l₂, by rw [List.cons_append, ← heq], ?_, ?_⟩
      · intro b hb
        rcases List.mem_cons.mp hb with rfl | hb2
        · have := hmin c (List.mem_cons_self _ _)
          omega
        · exact hpre b hb2
      · intro b hb
        rcases List.mem_cons.mp hb with rfl | hb2
        · have := hmin c (List.mem_cons_self _ _)
          omega
        · exact hmin b hb2
    · obtain ⟨l₁, l₂, heq, hpre, hmin⟩ := ih a
      rw [hstep, if_neg hc]
      cases l₁ with
      | nil =>
        simp only [List.nil_append] at heq
        injection heq with ha hl
        have hpa : pickNearest f a t = a := ha.symm
        refine ⟨[], c :: t, by simp [hpa], by simp, ?_⟩
        intro b hb
        rcases List.mem_cons.mp hb with rfl | hb2
        · simp [hpa]
        · rcases List.mem_cons.mp hb2 with rfl | hb3
          · rw [hpa]
            omega
          · exact hmin b (List.mem_cons_of_mem _ hb3)
      | cons a' l₁' =>
        simp only [List.cons_append] at heq
        injection heq with ha' ht
        subst ha'
        refine ⟨a :: c :: l₁', l₂, ?_, ?_, ?_⟩
        · simp only [List.cons_append]
          rw [← ht]
        · intro b hb
          rcases List.mem_cons.mp hb with rfl | hb2
          · refine hpre b ?_
            rw [← List.singleton_append]
            exact List.mem_append.mpr (Or.inl (List.mem_singleton.mpr rfl))
          · rcases List.mem_cons.mp hb2 with rfl | hb3
            · have hlt : f (pickNearest f a t) < f a := by
                refine hpre a ?_
                rw [← List.singleton_append]
                exact List.mem_append.mpr (Or.inl (List.mem_singleton.mpr rfl))
              omega
            · exact hpre b (List.mem_cons_of_mem _ hb3)
        · intro b hb
          rcases List.mem_cons.mp hb with rfl | hb2
          · exact hmin b (List.mem_cons_self _ _)
          · rcases List.mem_cons.mp hb2 with rfl | hb3
            · have := hmin a (List.mem_cons_self _ _)
              omega
            · exact hmin b (List.mem_cons_of_mem _ hb3)

theorem pickNearest_mem {α : Type} (f : α → Nat) (a : α) (l : List α) :
    pickNearest f a l ∈ a :: l := by
  obtain ⟨l₁, l₂, heq, _, _⟩ := pickNearest_spec f l a
  rw [heq]
  exact List.mem_append.mpr (Or.inr (List.mem_cons_self _ _))

theorem pickNearest_min {α : Type} (f : α → Nat) (a : α) (l : List α) :
    ∀ b ∈ a :: l, f (pickNearest f a l) ≤ f b := by
  obtain ⟨_, _, _, _, hmin⟩ := pickNearest_spec f l a
  exact hmin

/-- On a `≤`-sorted list, ties go to the earlier (hence smaller) element. -/
theorem pickNearest_tie {f : Int → Nat} {a : Int} {l : List Int}
    (hsorted : List.Pairwise (fun u v : Int => u ≤ v) (a :: l)) :
    ∀ b ∈ a :: l, f b = f (pickNearest f a l) → pickNearest f a l ≤ b := by
  obtain ⟨l₁, l₂, heq, hpre, _⟩ := pickNearest_spec f l a
  intro b hb htie
  rw [heq] at hb hsorted
  rcases List.mem_append.mp hb with hb1 | hb2
  · exact absurd htie.symm (Nat.ne_of_lt (hpre b hb1))
  · rcases List.mem_cons.mp hb2 with rfl | hb3
    · exact le_rfl
    · exact List.rel_of_pairwise_cons
        (hsorted.sublist (List.sublist_append_right l₁ _)) hb3

/-- Structure of the spread-min fold: the result is the initial value or one
of the keys, and it bounds all of them from below. -/
theorem foldl_min_spec {α : Type} (f : α → Nat) :
    ∀ (l : List α) (x : Nat),
      (l.foldl (fun acc p => min acc (f p)) x = x ∨
        ∃ p ∈ l, l.foldl (fun acc p => min acc (f p)) x = f p) ∧
      l.foldl (fun acc p => min acc (f p)) x ≤ x ∧
      ∀ p ∈ l, l.foldl (fun acc p => min acc (f p)) x ≤ f p := by
  intro l
  induction l with
  | nil => intro x; exact ⟨Or.inl rfl, le_rfl, by simp⟩
  | cons c t ih =>
    intro x
    obtain ⟨h1, h2, h3⟩ := ih (min x (f c))
    have hfold : (c :: t).foldl (fun acc p => min acc (f p)) x =
        t.foldl (fun acc p => min acc (f p)) (min x (f c)) := rfl
    refine ⟨?_, ?_, ?_⟩
    · rw [hfold]
      rcases h1 with h | ⟨p, hp, hp2⟩
      · rcases Nat.le_total x (f c) with hxc | hxc
        · left
          rw [h]
          omega
        · right
          exact ⟨c, List.mem_cons_self _ _, by rw [h]; omega⟩
      · exact Or.inr ⟨p, List.mem_cons_of_mem _ hp, hp2⟩
    · rw [hfold]
      omega
    · intro p hp
      rw [hfold]
      rcases List.mem_cons.mp hp with rfl | hp2
      · omega
      · exact h3 p hp2

/-- Structure of the spread-max fold, dually. -/
theorem foldl_max_spec {α : Type} (f : α → Nat) :
    ∀ (l : List α) (x : Nat),
      (l.foldl (fun acc p => max acc (f p)) x = x ∨
        ∃ p ∈ l, l.foldl (fun acc p => max acc (f p)) x = f p) ∧
      x ≤ l.foldl (fun acc p => max acc (f p)) x ∧
      ∀ p ∈ l, f p ≤ l.foldl (fun acc p => max acc (f p)) x := by
  intro l
  induction l with
  | nil => intro x; exact ⟨Or.inl rfl, le_rfl, by simp⟩
  | cons c t ih =>
    intro x
    obtain ⟨h1, h2, h3⟩ := ih (max x (f c))
    have hfold : (c :: t).foldl (fun acc p => max acc (f p)) x =
        t.foldl (fun acc p => max acc (f p)) (max x (f c)) := rfl
    refine ⟨?_, ?_, ?_⟩
    · rw [hfold]
      rcases h1 with h | ⟨p, hp, hp2⟩
      · rcases Nat.le_total x (f c) with hxc | hxc
        · right
          exact ⟨c, List.mem_cons_self _ _, by rw [h]; omega⟩
        · left
          rw [h]
          omega
      · exact Or.inr ⟨p, List.mem_cons_of_mem _ hp, hp2⟩
    · rw [hfold]
      omega
    · intro p hp
      rw [hfold]
      rcases List.mem_cons.mp hp with rfl | hp2
      · omega
      · exact h3 p hp2

theorem rowsSorted_mem (m : List PositionMapping) (r : Int) :
    r ∈ rowsSorted m ↔ ∃ p ∈ m, p.terminalRow = r := by
  unfold rowsSorted
  rw [(List.perm_insertionSort _ _).mem_iff, List.mem_dedup, List.mem_map]

theorem rowsSorted_sorted (m : List PositionMapping) :
    List.Pairwise (fun u v : Int => u ≤ v) (rowsSorted m) :=
  List.sorted_insertionSort _ _

theorem terminalToOffset_eq_find (x y : Int) (m : List PositionMapping)
    (p : PositionMapping)
    (h : m.find? (fun q => q.terminalRow == y && q.terminalCol == x) = some p) :
    terminalToOffset x y m = .ok (some p.sourceOffset) := by
  unfold terminalToOffset
  rw [h]

theorem terminalToOffset_eq_row (x y : Int) (m : List PositionMapping)
    (hfind : m.find? (fun q => q.terminalRow == y && q.terminalCol == x) = none)
    (e : PositionMapping) (es : List PositionMapping)
    (hfilter : m.filter (fun p => p.terminalRow == y) = e :: es) :
    terminalToOffset x y m =
      .ok (some ((pickNearest (fun p => distTo x p.terminalCol) e es).sourceOffset)) := by
  unfold terminalToOffset
  rw [hfind, hfilter]

theorem terminalToOffset_eq_other (x y : Int) (m : List PositionMapping)
    (hfind : m.find? (fun q => q.terminalRow == y && q.terminalCol == x) = none)
    (hfilter : m.filter (fun p => p.terminalRow == y) = [])
    (r : Int) (rs : List Int) (hrows : rowsSorted m = r :: rs)
    (e : PositionMapping) (es : List PositionMapping)
    (hfilter2 : m.filter
      (fun p => p.terminalRow == pickNearest (distTo y) r rs) = e :: es) :
    terminalToOffset x y m =
      if y < pickNearest (distTo y) r rs then .ok (some (minOffset e es))
      else .ok (some (maxOffset e es)) := by
  unfold terminalToOffset
  rw [hfind, hfilter, hrows]
  dsimp only
  rw [hfilter2]

/-- C6: for every coordinate pair and nonempty position map,
`terminalToOffset` returns some source offset, and the resolution follows
the documented rules: an exact (row, col) match returns that entry's
offset; otherwise, if entries exist on row y, an entry with column nearest
to x is used; otherwise a row nearest to y is chosen, equal distances going
to the numerically smaller row, and the result is that row's minimum source
offset when y is above the chosen row and its maximum when y is below. -/
theorem c6_terminal_to_offset (x y : Int) (m : List PositionMapping) (hm : m ≠ []) :
    (∃ o, terminalToOffset x y m = .ok (some o)) ∧
    ((∃ p ∈ m, p.terminalRow = y ∧ p.terminalCol = x) →
      ∃ p ∈ m, p.terminalRow = y ∧ p.terminalCol = x ∧
        terminalToOffset x y m = .ok (some p.sourceOffset)) ∧
    ((¬ ∃ p ∈ m, p.terminalRow = y ∧ p.terminalCol = x) →
      (∃ p ∈ m, p.terminalRow = y) →
      ∃ p ∈ m, p.terminalRow = y ∧
        terminalToOffset x y m = .ok (some p.sourceOffset) ∧
        ∀ q ∈ m, q.terminalRow = y →
          (p.terminalCol - x).natAbs ≤ (q.terminalCol - x).natAbs) ∧
    ((¬ ∃ p ∈ m, p.terminalRow = y) →
      ∃ r : Int, (∃ p ∈ m, p.terminalRow = r) ∧
        (∀ q ∈ m, (r - y).natAbs ≤ (q.terminalRow - y).natAbs) ∧
        (∀ q ∈ m, (q.terminalRow - y).natAbs = (r - y).natAbs → r ≤ q.terminalRow) ∧
        (y < r →
          ∃ o, terminalToOffset x y m = .ok (some o) ∧
            (∃ p ∈ m, p.terminalRow = r ∧ p.sourceOffset = o) ∧
            ∀ p ∈ m, p.terminalRow = r → o ≤ p.sourceOffset) ∧
        (r < y →
          ∃ o, terminalToOffset x y m = .ok (some o) ∧
            (∃ p ∈ m, p.terminalRow = r ∧ p.sourceOffset = o) ∧
            ∀ p ∈ m, p.terminalRow = r → p.sourceOffset ≤ o)) := by
  cases hfind : m.find? (fun q => q.terminalRow == y && q.terminalCol == x) with
  | some p =>
    have hres := terminalToOffset_eq_find x y m p hfind
    have hpm : p ∈ m := List.mem_of_find?_eq_some hfind
    have hpeq : p.terminalRow = y ∧ p.terminalCol = x := by
      have h2 := List.find?_some hfind
      simpa using h2
    refine ⟨⟨p.sourceOffset, hres⟩, ?_, ?_, ?_⟩
    · intro _
      exact ⟨p, hpm, hpeq.1, hpeq.2, hres⟩
    · intro hno _
      exact absurd ⟨p, hpm, hpeq.1, hpeq.2⟩ hno
    · intro hno
      exact absurd ⟨p, hpm, hpeq.1⟩ hno
  | none =>
    have hnoexact : ¬ ∃ p ∈ m, p.terminalRow = y ∧ p.terminalCol = x := by
      rintro ⟨p, hp, hrow, hcol⟩
      have h1 := List.find?_eq_none.mp hfind p hp
      simp [hrow, hcol] at h1
    cases hfilter : m.filter (fun p => p.terminalRow == y) with
    | cons e es =>
      have hres := terminalToOffset_eq_row x y m hfind e es hfilter
      have hmemfilter : ∀ q ∈ m, q.terminalRow = y → q ∈ e :: es := by
        intro q hq hrow
        rw [← hfilter]
        exact List.mem_filter.mpr ⟨hq, by simp [hrow]⟩
      have hfiltermem : ∀ q ∈ e :: es, q ∈ m ∧ q.terminalRow = y := by
        intro q hq
        rw [← hfilter] at hq
        have h2 := List.mem_filter.mp hq
        exact ⟨h2.1, by simpa using h2.2⟩
      refine ⟨⟨_, hres⟩, fun hex => absurd hex hnoexact, ?_, ?_⟩
      · intro _ _
        have hpk := hfiltermem _
          (pickNearest_mem (fun p => distTo x p.terminalCol) e es)
        refine ⟨_, hpk.1, hpk.2, hres, ?_⟩
        intro q hq hrowq
        exact pickNearest_min (fun p => distTo x p.terminalCol) e es q
          (hmemfilter q hq hrowq)
      · intro hnorow
        have he := hfiltermem e (List.mem_cons_self _ _)
        exact absurd ⟨e, he.1, he.2⟩ hnorow
    | nil =>
      have hnorow : ∀ p ∈ m, p.terminalRow ≠ y := by
        intro p hp hcon
        have h2 : p ∈ m.filter (fun q => q.terminalRow == y) :=
          List.mem_filter.mpr ⟨hp, by simp [hcon]⟩
        rw [hfilter] at h2
        simp at h2
      obtain ⟨p0, hp0⟩ : ∃ p, p ∈ m := by
        cases m with
        | nil => exact absurd rfl hm
        | cons a t => exact ⟨a, List.mem_cons_self _ _⟩
      have hrow0 : p0.terminalRow ∈ rowsSorted m :=
        (rowsSorted_mem m _).mpr ⟨p0, hp0, rfl⟩
      cases hrows : rowsSorted m with
      | nil =>
        rw [hrows] at hrow0
        simp at hrow0
      | cons r rs =>
        have hcrmem : pickNearest (distTo y) r rs ∈ rowsSorted m := by
          rw [hrows]
          exact pickNearest_mem _ r rs
        obtain ⟨pc, hpc, hpcrow⟩ := (rowsSorted_mem m _).mp hcrmem
        cases hfilter2 : m.filter
            (fun p => p.terminalRow == pickNearest (distTo y) r rs) with
        | nil =>
          exfalso
          have h2 : pc ∈ m.filter
              (fun p => p.terminalRow == pickNearest (distTo y) r rs) :=
            List.mem_filter.mpr ⟨hpc, by simp [hpcrow]⟩
          rw [hfilter2] at h2
          simp at h2
        | cons e es =>
          have hres := terminalToOffset_eq_other x y m hfind hfilter r rs hrows
            e es hfilter2
          have hcr_ne : pickNearest (distTo y) r rs ≠ y := fun hcon =>
            hnorow pc hpc (hpcrow.trans hcon)
          have hfiltermem2 : ∀ q ∈ e :: es,
              q ∈ m ∧ q.terminalRow = pickNearest (distTo y) r rs := by
            intro q hq
            rw [← hfilter2] at hq
            have h2 := List.mem_filter.mp hq
            exact ⟨h2.1, by simpa using h2.2⟩
          have hmemfilter2 : ∀ q ∈ m,
              q.terminalRow = pickNearest (distTo y) r rs → q ∈ e :: es := by
            intro q hq hrow
            rw [← hfilter2]
            exact List.mem_filter.mpr ⟨hq, by simp [hrow]⟩
          have hmindist : ∀ q ∈ m,
              distTo y (pickNearest (distTo y) r rs) ≤ distTo y q.terminalRow := by
            intro q hq
            refine pickNearest_min (distTo y) r rs q.terminalRow ?_
            rw [← hrows]
            exact (rowsSorted_mem m _).mpr ⟨q, hq, rfl⟩
          have htie : ∀ q ∈ m,
              distTo y q.terminalRow = distTo y (pickNearest (distTo y) r rs) →
                pickNearest (distTo y) r rs ≤ q.terminalRow := by
            intro q hq heqd
            refine pickNearest_tie ?_ q.terminalRow ?_ heqd
            · rw [← hrows]
              exact rowsSorted_sorted m
            · rw [← hrows]
              exact (rowsSorted_mem m _).mpr ⟨q, hq, rfl⟩
          have hconj1 : ∃ o, terminalToOffset x y m = .ok (some o) := by
            by_cases hy : y < pickNearest (distTo y) r rs
            · exact ⟨minOffset e es, by rw [hres, if_pos hy]⟩
            · exact ⟨maxOffset e es, by rw [hres, if_neg hy]⟩
          refine ⟨hconj1, fun hex => absurd hex hnoexact, ?_, ?_⟩
          · intro _ hex
            obtain ⟨p, hp, hrow⟩ := hex
            exact absurd hrow (hnorow p hp)
          · intro _
            refine ⟨pickNearest (distTo y) r rs, ⟨pc, hpc, hpcrow⟩,
              hmindist, htie, ?_, ?_⟩
            · intro hy
              obtain ⟨h1, h2, h3⟩ :=
                foldl_min_spec (fun p : PositionMapping => p.sourceOffset)
                  es e.sourceOffset
              refine ⟨minOffset e es, by rw [hres, if_pos hy], ?_, ?_⟩
              · rcases h1 with h | ⟨p, hp, hp2⟩
                · have he := hfiltermem2 e (List.mem_cons_self _ _)
                  exact ⟨e, he.1, he.2, h.symm⟩
                · have hpf := hfiltermem2 p (List.mem_cons_of_mem _ hp)
                  exact ⟨p, hpf.1, hpf.2, hp2.symm⟩
              · intro p hp hrowp
                rcases List.mem_cons.mp (hmemfilter2 p hp hrowp) with rfl | hpes
                · exact h2
                · exact h3 p hpes
            · intro hy
              obtain ⟨h1, h2, h3⟩ :=
                foldl_max_spec (fun p : PositionMapping => p.sourceOffset)
                  es e.sourceOffset
              have hyneg : ¬ y < pickNearest (distTo y) r rs := by omega
              refine ⟨maxOffset e es, by rw [hres, if_neg hyneg], ?_, ?_⟩
              · rcases h1 with h | ⟨p, hp, hp2⟩
                · have he := hfiltermem2 e (List.mem_cons_self _ _)
                  exact ⟨e, he.1, he.2, h.symm⟩
                · have hpf := hfiltermem2 p (List.mem_cons_of_mem _ hp)
                  exact ⟨p, hpf.1, hpf.2, hp2.symm⟩
              · intro p hp hrowp
                rcases List.mem_cons.mp (hmemfilter2 p hp hrowp) with rfl | hpes
                · exact h2
                · exact h3 p hpes

/-- C6 witness at a concrete map and coordinates. -/
theorem c6_terminal_to_offset_witness :
    ∃ o, terminalToOffset 5 5 [⟨1, 1, 0⟩] = .ok (some o) :=
  (c6_terminal_to_offset 5 5 [⟨1, 1, 0⟩] (by decide)).1

/-- `offsetToLineCol(offset, content)`: 1-based line and column reached after
walking `min offset content.length` characters. -/
def offsetToLineCol (offset : Nat) (content : Str) : Nat × Nat :=
  (content.take offset).foldl
    (fun lc ch => if ch = '\n' then (lc.1 + 1, 1) else (lc.1, lc.2 + 1)) (1, 1)

/-! Selection state machine (the `useTextSelection` handlers). Events carry
the already-resolved source offset (the result of adjusting the pointer
coordinates and running `terminalToOffset`); `none` covers both a `null`
resolution and coordinates that did not resolve. -/

/-- Mouse-button ref plus the `SelectionState` react state. -/
structure MachineState where
  mouseDown : Bool
  isSelecting : Bool
  anchorOffset : Option Nat
  focusOffset : Option Nat
  startOffset : Option Nat
  endOffset : Option Nat
deriving Repr, DecidableEq

/-- The state before any pointer event. -/
def initialState : MachineState := ⟨false, false, none, none, none, none⟩

inductive PointerEvent
  | press (resolved : Option Nat)
  | move (resolved : Option Nat)
  | release
deriving Repr, DecidableEq

/-- `handleClick`: start a selection at the resolved offset. -/
def handleClick (enabled : Bool) (st : MachineState) (resolved : Option Nat) :
    MachineState :=
  if !enabled then st
  else
    match resolved with
    | none => st
    | some off => ⟨true, true, some off, some off, some off, some off⟩

/-- `handleMove`: extend the selection from the anchor while the button is
held, renormalizing the (start, end) pair. -/
def handleMove (enabled : Bool) (st : MachineState) (resolved : Option Nat) :
    MachineState :=
  if !enabled || !st.mouseDown then st
  else
    match resolved with
    | none => st
    | some off =>
      match st.anchorOffset with
      | none => st
      | some anchor =>
        { st with
            isSelecting := true
            focusOffset := some off
            startOffset := some (min anchor off)
            endOffset := some (max anchor off) }

/-- `handleRelease`: drop the button and freeze the selection. -/
def handleRelease (enabled : Bool) (st : MachineState) : MachineState :=
  if !enabled then st
  else { st with mouseDown := false, isSelecting := false }

def stepEvent (enabled : Bool) (st : MachineState) : PointerEvent → MachineState
  | .press r => handleClick enabled st r
  | .move r => handleMove enabled st r
  | .release => handleRelease enabled st

/-- Folding a pointer event trace through the handlers. -/
def runEvents (enabled : Bool) (st : MachineState) (es : List PointerEvent) :
    MachineState :=
  es.foldl (stepEvent enabled) st

/-- The selection payload sent to the host. -/
structure DocumentSelection where
  selectedText : Str
  startOffset : Nat
  endOffset : Nat
  startLine : Nat
  endLine : Nat
  startColumn : Nat
  endColumn : Nat
deriving Repr, DecidableEq

/-- `getSelectionData(state)`: `null` when either offset is missing or the
normalized range is empty. -/
def getSelectionData (content : Str) (st : MachineState) : Option DocumentSelection :=
  match st.startOffset, st.endOffset with
  | some s, some e =>
    if s = e then none
    else
      let startPos := offsetToLineCol s content
      let endPos := offsetToLineCol e content
      some ⟨(content.drop s).take (e - s), s, e, startPos.1, endPos.1, startPos.2, endPos.2⟩
  | _, _ => none

/-- `handleRelease` together with its notification: the new state plus the
selection passed to `onSelectionChange`, where `none` means the callback is
not invoked. -/
def releaseEmit (enabled : Bool) (content : Str) (st : MachineState) :
    MachineState × Option DocumentSelection :=
  if !enabled then (st, none)
  else
    let newState := { st with mouseDown := false, isSelecting := false }
    match getSelectionData content newState with
    | some d =>
      if d.startOffset ≠ d.endOffset then (newState, some d) else (newState, none)
    | none => (newState, none)

/-! Selection normalization and release emission (claims C7 and C9). -/

/-- The canonical in-drag state: anchor `a`, focus `c`, normalized pair. -/
def dragState (a c : Nat) : MachineState :=
  ⟨true, true, some a, some c, some (min a c), some (max a c)⟩

theorem press_dragState (st : MachineState) (a : Nat) :
    stepEvent true st (.press (some a)) = dragState a a := by
  simp [stepEvent, handleClick, dragState, Nat.min_self, Nat.max_self]

theorem move_dragState (a c o : Nat) :
    stepEvent true (dragState a c) (.move (some o)) = dragState a o := by
  simp [stepEvent, handleMove, dragState]

theorem move_none_dragState (a c : Nat) :
    stepEvent true (dragState a c) (.move none) = dragState a c := by
  simp [stepEvent, handleMove, dragState]

/-- The last non-null resolution in a move trace, defaulting to `c`. -/
def lastResolvedD (c : Nat) (ms : List (Option Nat)) : Nat :=
  ((ms.filterMap id).getLast?).getD c

theorem getLastD_cons (o' c : Nat) (l : List Nat) :
    ((o' :: l).getLast?).getD c = (l.getLast?).getD o' := by
  cases l with
  | nil => rfl
  | cons x xs =>
    rw [List.getLast?_cons_cons]
    have h2 : (x :: xs).getLast? ≠ none := by
      simp [List.getLast?_eq_none_iff]
    cases hv : (x :: xs).getLast? with
    | none => exact absurd hv h2
    | some v => rfl

theorem runMoves_dragState (a : Nat) :
    ∀ (ms : List (Option Nat)) (c : Nat),
      runEvents true (dragState a c) (ms.map .move) =
        dragState a (lastResolvedD c ms) := by
  intro ms
  induction ms with
  | nil =>
    intro c
    simp [runEvents, lastResolvedD]
  | cons o t ih =>
    intro c
    have hfold : runEvents true (dragState a c) ((o :: t).map .move) =
        runEvents true (stepEvent true (dragState a c) (.move o)) (t.map .move) := rfl
    cases o with
    | none =>
      rw [hfold, move_none_dragState, ih c]
      congr 1
    | some o' =>
      rw [hfold, move_dragState, ih o']
      congr 1
      unfold lastResolvedD
      rw [show (some o' :: t).filterMap id = o' :: t.filterMap id by simp,
        getLastD_cons]

theorem release_dragState (a c : Nat) :
    stepEvent true (dragState a c) .release =
      ⟨false, false, some a, some c, some (min a c), some (max a c)⟩ := by
  simp [stepEvent, handleRelease, dragState]

/-- States with a normalized (start ≤ end) pair whenever both are present. -/
def OrderedState (st : MachineState) : Prop :=
  ∀ s e, st.startOffset = some s → st.endOffset = some e → s ≤ e

theorem step_ordered (st : MachineState) (ev : PointerEvent)
    (h : OrderedState st) : OrderedState (stepEvent true st ev) := by
  cases ev with
  | press r =>
    cases r with
    | none => simpa [stepEvent, handleClick] using h
    | some off =>
      intro s e hs he
      simp [stepEvent, handleClick] at hs he
      omega
  | move r =>
    cases r with
    | none => simpa [stepEvent, handleMove] using h
    | some off =>
      cases hmd : st.mouseDown with
      | false =>
        have hst : stepEvent true st (.move (some off)) = st := by
          simp [stepEvent, handleMove, hmd]
        rw [hst]
        exact h
      | true =>
        cases hanch : st.anchorOffset with
        | none =>
          have hst : stepEvent true st (.move (some off)) = st := by
            simp [stepEvent, handleMove, hmd, hanch]
          rw [hst]
          exact h
        | some anchor =>
          intro s e hs he
          simp [stepEvent, handleMove, hmd, hanch] at hs he
          omega
  | release =>
    intro s e hs he
    simp [stepEvent, handleRelease] at hs he
    exact h s e hs he

theorem runEvents_ordered :
    ∀ (es : List PointerEvent) (st : MachineState), OrderedState st →
      OrderedState (runEvents true st es) := by
  intro es
  induction es with
  | nil => intro st h; exact h
  | cons ev t ih =>
    intro st h
    exact ih _ (step_ordered st ev h)

/-- C7: after a press resolving to `a`, any sequence of moves whose last
resolving move yields `b`, and a release, the frozen selection satisfies
startOffset = min(a, b) and endOffset = max(a, b); and after any event
sequence from the initial state, whenever both normalized offsets are
present, startOffset ≤ endOffset. -/
theorem c7_selection_normalization :
    (∀ (st : MachineState) (a b : Nat) (ms : List (Option Nat)),
      (ms.filterMap id).getLast? = some b →
      (runEvents true st
          (.press (some a) :: ms.map .move ++ [.release])).startOffset
        = some (min a b) ∧
      (runEvents true st
          (.press (some a) :: ms.map .move ++ [.release])).endOffset
        = some (max a b)) ∧
    (∀ (es : List PointerEvent) (s e : Nat),
      (runEvents true initialState es).startOffset = some s →
      (runEvents true initialState es).endOffset = some e → s ≤ e) := by
  constructor
  · intro st a b ms hlast
    have h1 : runEvents true st (.press (some a) :: ms.map .move ++ [.release]) =
        runEvents true (runEvents true (stepEvent true st (.press (some a)))
          (ms.map .move)) [.release] := by
      simp [runEvents, List.foldl_append]
    rw [h1, press_dragState, runMoves_dragState]
    have h2 : lastResolvedD a ms = b := by
      unfold lastResolvedD
      rw [hlast]
      rfl
    rw [h2]
    have h3 : runEvents true (dragState a b) [.release] =
        stepEvent true (dragState a b) .release := rfl
    rw [h3, release_dragState]
    exact ⟨rfl, rfl⟩
  · intro es s e hs he
    exact runEvents_ordered es initialState (by intro s' e' hs' _; simp [initialState] at hs') s e hs he

/-- C7 witness at a concrete trace: press at 7, drag to 3, release. -/
theorem c7_selection_normalization_witness :
    (runEvents true initialState
        (.press (some 7) :: List.map PointerEvent.move [some 3] ++ [.release])).startOffset
      = some (min 7 3) ∧
    (runEvents true initialState
        (.press (some 7) :: List.map PointerEvent.move [some 3] ++ [.release])).endOffset
      = some (max 7 3) :=
  c7_selection_normalization.1 initialState 7 3 [some 3] (by decide)

/-- C9: the release handler invokes the selection-changed callback exactly
when both normalized offsets are present and distinct; a press immediately
released at the same resolved point leaves startOffset = endOffset, a null
selection, and no callback invocation. -/
theorem c9_release_emit (content : Str) (st : MachineState) :
    (((releaseEmit true content st).2).isSome ↔
      ∃ s e, st.startOffset = some s ∧ st.endOffset = some e ∧ s ≠ e) ∧
    (∀ a : Nat,
      (stepEvent true st (.press (some a))).startOffset =
        (stepEvent true st (.press (some a))).endOffset ∧
      getSelectionData content (stepEvent true st (.press (some a))) = none ∧
      (releaseEmit true content (stepEvent true st (.press (some a)))).2 = none) := by
  constructor
  · unfold releaseEmit getSelectionData
    cases hs : st.startOffset with
    | none => simp [hs]
    | some s =>
      cases he : st.endOffset with
      | none => simp [hs, he]
      | some e =>
        by_cases hse : s = e
        · subst hse
          simp [hs, he]
        · simp [hs, he, hse]
  · intro a
    refine ⟨by simp [stepEvent, handleClick], ?_, ?_⟩
    · simp [stepEvent, handleClick, getSelectionData]
    · simp [stepEvent, handleClick, releaseEmit, getSelectionData]

end Canvas
